import Mathlib

set_option maxRecDepth 16384

/-!
Verification development for the PayrollDataExtractor server.

The definitions below are a shallow embedding of the TypeScript sources
`src/server/pdf-extractor.ts`, `src/server/rh-extractor.ts` and the
consolidation part of `src/server/routes.ts`.  Strings are represented by
`String` (worked on through `String.data : List Char`), JavaScript numbers by
`ℚ` (all numbers reached by these functions are decimal fractions, so the
rational embedding is exact), and each regular expression of the source is
hand-translated into a dedicated scanner implementing JavaScript
leftmost-match semantics with the greedy/lazy backtracking order of the
original pattern.  The current date (`new Date()` in the source) is passed as
an explicit `now : String` parameter.
-/

/-! ## JavaScript character-class and string primitives -/

/-- JS `\d`. -/
def jsDigit (c : Char) : Bool := '0' ≤ c && c ≤ '9'

/-- JS `\s` (the ASCII whitespace characters plus NBSP; the extracted page
texts only ever contain the ASCII ones). -/
def jsWs (c : Char) : Bool :=
  c = ' ' || c = '\t' || c = '\n' || c = '\r' ||
    c = Char.ofNat 11 || c = Char.ofNat 12 || c = Char.ofNat 160

/-- JS word character, as used by the `\b` assertion. -/
def jsWordChar (c : Char) : Bool :=
  ('A' ≤ c && c ≤ 'Z') || ('a' ≤ c && c ≤ 'z') || jsDigit c || c = '_'

/-- Word-ness of an optional character (`none` = start/end of input). -/
def wordness : Option Char → Bool
  | none => false
  | some c => jsWordChar c

/-- ASCII + Latin-1 lower-casing, the case folding relevant to the `i` flag on
the patterns of this code base. -/
def lowerChar (c : Char) : Char :=
  if 'A' ≤ c && c ≤ 'Z' then Char.ofNat (c.toNat + 32)
  else if 0xC0 ≤ c.toNat && c.toNat ≤ 0xDE && c.toNat ≠ 0xD7 then Char.ofNat (c.toNat + 32)
  else c

def lowerStr (s : String) : String := ⟨s.data.map lowerChar⟩

/-- Take exactly `n` characters satisfying `p`, returning them and the rest. -/
def takeExactP (p : Char → Bool) : Nat → List Char → Option (List Char × List Char)
  | 0, l => some ([], l)
  | _ + 1, [] => none
  | n + 1, c :: l =>
    if p c then (takeExactP p n l).map (fun r => (c :: r.1, r.2)) else none

/-- `(l.takeWhile p, l.dropWhile p)` — the greedy maximal run of `p`
characters and the rest (JS `X*`/`X+` before a disjoint continuation). -/
def spanP (p : Char → Bool) (l : List Char) : List Char × List Char :=
  (l.takeWhile p, l.dropWhile p)

def digitsToNat (l : List Char) : Nat := l.foldl (fun n c => 10 * n + (c.toNat - 48)) 0

/-- Model of JS `parseFloat` on the strings reachable in this code base
(digits, `'.'` and `','` only): the longest valid numeric prefix is parsed,
and `NaN` is modelled as `none`. -/
def parseFloatJS (s : String) : Option ℚ :=
  let ds := s.data.takeWhile jsDigit
  match s.data.dropWhile jsDigit with
  | '.' :: r2 =>
    let fs := r2.takeWhile jsDigit
    if ds.isEmpty && fs.isEmpty then none
    else
      some (mkRat (Int.ofNat (digitsToNat ds * 10 ^ fs.length + digitsToNat fs))
        (10 ^ fs.length))
  | _ => if ds.isEmpty then none else some (mkRat (Int.ofNat (digitsToNat ds)) 1)

/-- `str.replace(/\./g, '')`. -/
def stripDots (s : String) : String := ⟨s.data.filter (fun c => c != '.')⟩

def replaceFirstCommaAux : List Char → List Char
  | [] => []
  | c :: l => if c = ',' then '.' :: l else c :: replaceFirstCommaAux l

/-- `str.replace(',', '.')` — JS `replace` with a string pattern replaces only
the first occurrence. -/
def replaceFirstComma (s : String) : String := ⟨replaceFirstCommaAux s.data⟩

/-- The numeric normalisation used throughout the extractors:
`v.replace(/\./g, '').replace(',', '.')`. -/
def jsNormalizeNumber (s : String) : String := replaceFirstComma (stripDots s)

/-- JS `String.prototype.trim`. -/
def trimJS (s : String) : String :=
  ⟨((s.data.dropWhile jsWs).reverse.dropWhile jsWs).reverse⟩

/-- JS `code.padStart(4, '0')`. -/
def padStart4 (s : String) : String :=
  if 4 ≤ s.data.length then s else ⟨List.replicate (4 - s.data.length) '0' ++ s.data⟩

/-- Split on every occurrence of a separator character
(JS `text.split('\n')`). -/
def splitCharAux (sep : Char) : List Char → List Char → List String
  | [], acc => [⟨acc.reverse⟩]
  | c :: l, acc =>
    if c = sep then ⟨acc.reverse⟩ :: splitCharAux sep l []
    else splitCharAux sep l (c :: acc)

def jsSplitNewline (s : String) : List String := splitCharAux '\n' s.data []

def splitPredAux (p : Char → Bool) : List Char → List Char → List String
  | [], acc => [⟨acc.reverse⟩]
  | c :: l, acc =>
    if p c then ⟨acc.reverse⟩ :: splitPredAux p l []
    else splitPredAux p l (c :: acc)

def dropMiddleEmpties : List String → List String
  | [] => []
  | [y] => [y]
  | y :: r => if y = "" then dropMiddleEmpties r else y :: dropMiddleEmpties r

/-- JS `text.split(/[\n\r]+/)`: splitting on maximal runs of newline
characters (equivalently: split at every newline, then drop the empty pieces
that are neither first nor last). -/
def splitNLRuns (s : String) : List String :=
  match splitPredAux (fun c => c = '\n' || c = '\r') s.data [] with
  | [] => []
  | [x] => [x]
  | x :: rest => x :: dropMiddleEmpties rest

/-- Generic leftmost search: try a position matcher at every start position,
earliest success first — the JS regex search strategy.  `prev` is the
character before the current position (for `\b`). -/
def searchAux {α : Type} (matchAt : Option Char → List Char → Option α) :
    Option Char → List Char → Option α
  | prev, l =>
    match matchAt prev l with
    | some r => some r
    | none =>
      match l with
      | [] => none
      | c :: rest => searchAux matchAt (some c) rest

/-! ## Data model (`src/shared/schema.ts`) -/

/-- `ExtractedPayrollItem` of `shared/schema.ts`. -/
structure ExtractedPayrollItem where
  code : String
  description : String
  value : ℚ
deriving DecidableEq

/-- `PDFSource` of `pdf-extractor.ts`. -/
inductive PDFSource where
  | ERP : PDFSource
  | RH : PDFSource
deriving DecidableEq

/-- `ProcessedPayslip` of `shared/schema.ts`. -/
structure ProcessedPayslip where
  date : String
  items : List ExtractedPayrollItem
  source : PDFSource
deriving DecidableEq

namespace PdfExtractor

/-! ## `src/server/pdf-extractor.ts` -/

/-- The description character class `[A-Za-zÀ-úÇç0-9\.\s-]` of the line
patterns (`Ç`/`ç` lie inside `À-ú` and are kept for faithfulness). -/
def descChar (c : Char) : Bool :=
  ('A' ≤ c && c ≤ 'Z') || ('a' ≤ c && c ≤ 'z') ||
    (0xC0 ≤ c.toNat && c.toNat ≤ 0xFA) || c = 'Ç' || c = 'ç' ||
    jsDigit c || c = '.' || jsWs c || c = '-'

/-- The value character class `[\d\.,]`. -/
def valChar (c : Char) : Bool := jsDigit c || c = '.' || c = ','

/-- Tail of `patternMain` after the description: `\s+R\$\s+([\d\.,]+)` (the
pattern carries the `i` flag, so `r$` is accepted as well).  The `\s+` runs
are taken maximally; shrinking them can never enable the following literal. -/
def tailMain (l : List Char) : Option String :=
  match spanP jsWs l with
  | ([], _) => none
  | (_ :: _, r1) =>
    match r1 with
    | c :: '$' :: r2 =>
      if c = 'R' || c = 'r' then
        match spanP jsWs r2 with
        | ([], _) => none
        | (_ :: _, r3) =>
          match spanP valChar r3 with
          | ([], _) => none
          | (v, _) => some ⟨v⟩
      else none
    | _ => none

/-- Tail of `patternAlt` after the description: `\s+[\d\.,]+` (value not
captured). -/
def tailAlt (l : List Char) : Option Unit :=
  match spanP jsWs l with
  | ([], _) => none
  | (_ :: _, r1) =>
    match spanP valChar r1 with
    | ([], _) => none
    | (_ :: _, _) => some ()

/-- Greedy one-or-more description capture followed by a tail: the longest
description run is tried first and shortened on failure — the JS backtracking
order of `([A-Za-zÀ-úÇç0-9\.\s-]+)<tail>`.  `descRev` holds the current
candidate reversed. -/
def tryDescTail {α : Type} (tail : List Char → Option α) :
    List Char → List Char → Option (String × α)
  | [], _ => none
  | d :: dRest, rest =>
    match tail rest with
    | some v => some (⟨(d :: dRest).reverse⟩, v)
    | none => tryDescTail tail dRest (d :: rest)

/-- Greedy separator-then-description matching: `sepRev` is the (reversed)
separator run still being claimed; the longest separator is tried first, then
given back character by character (JS backtracking of `<sep>+<desc>+<tail>`).
The separator must be non-empty, which holds because the initial call passes a
non-empty run. -/
def trySepDesc {α : Type} (tail : List Char → Option α) (dClass : Char → Bool) :
    List Char → List Char → Option (String × α)
  | [], _ => none
  | s :: sRest, rest =>
    match
      (match spanP dClass rest with
       | (drun, after) => tryDescTail tail drun.reverse after)
    with
    | some res => some res
    | none => trySepDesc tail dClass sRest (s :: rest)

/-- Position matcher for
`patternMain = /\b(\d{4})\b[.\s]+([A-Za-zÀ-úÇç0-9\.\s-]+)\s+R\$\s+([\d\.,]+)/i`:
word boundary, four digits, word boundary, a non-empty `[.\s]` run, then
description and tail.  Returns (code, description, captured value). -/
def matchMainAt (prev : Option Char) (l : List Char) :
    Option (String × String × String) :=
  if wordness prev then none
  else
    match takeExactP jsDigit 4 l with
    | none => none
    | some (ds, r1) =>
      if wordness r1.head? then none
      else
        match spanP (fun c => c = '.' || jsWs c) r1 with
        | ([], _) => none
        | (sep, rest) =>
          match trySepDesc tailMain descChar sep.reverse rest with
          | some (d, v) => some (⟨ds⟩, d, v)
          | none => none

/-- Position matcher for
`patternAlt = /\b(\d{4})\b\s+([A-Za-zÀ-úÇç0-9\.\s-]+)\s+[\d\.,]+/i`. -/
def matchAltAt (prev : Option Char) (l : List Char) : Option (String × String) :=
  if wordness prev then none
  else
    match takeExactP jsDigit 4 l with
    | none => none
    | some (ds, r1) =>
      if wordness r1.head? then none
      else
        match spanP jsWs r1 with
        | ([], _) => none
        | (sep, rest) =>
          match trySepDesc tailAlt descChar sep.reverse rest with
          | some (d, _) => some (⟨ds⟩, d)
          | none => none

/-- Position matcher for the stand-alone value regex `/R\$\s+([\d\.,]+)/`
(no `i` flag: the `R` is case sensitive). -/
def matchRValAt (_prev : Option Char) (l : List Char) : Option String :=
  match l with
  | 'R' :: '$' :: r =>
    match spanP jsWs r with
    | ([], _) => none
    | (_ :: _, r1) =>
      match spanP valChar r1 with
      | ([], _) => none
      | (v, _) => some ⟨v⟩
  | _ => none

def searchMain (l : List Char) : Option (String × String × String) :=
  searchAux matchMainAt none l

def searchAlt (l : List Char) : Option (String × String) :=
  searchAux matchAltAt none l

def searchRValue (l : List Char) : Option String :=
  searchAux matchRValAt none l

/-- The value of one ERP line (lines 181-186): the stand-alone `R$` regex
capture, normalised (default `'0'`), then `parseFloat(valueStr || '0')` — a
captured value that normalises to the empty string (an all-dots capture) is
falsy in JS and falls back to `'0'`, so it parses to `0` instead of `NaN`. -/
def erpLineValue (l : List Char) : Option ℚ :=
  let valueStr :=
    match searchRValue l with
    | some v => jsNormalizeNumber v
    | none => "0"
  parseFloatJS (if valueStr = "" then "0" else valueStr)

/-- One line of `extractERPPayrollItems` (lines 166-188): match `patternMain`
else `patternAlt`, take code and trimmed description, then the value of
`erpLineValue`; `none` when no pattern matches or the value `isNaN`. -/
def erpLineParsed (line : String) : Option ExtractedPayrollItem :=
  let l := line.data
  let mm : Option (String × String) :=
    match searchMain l with
    | some (c, d, _) => some (c, d)
    | none => searchAlt l
  match mm with
  | none => none
  | some (code, desc) =>
    match erpLineValue l with
    | none => none
    | some value => some ⟨code, trimJS desc, value⟩

/-- The duplicate-code accumulation of lines 195-207: `findIndex` on the code,
add to the existing item's value, otherwise push at the end.  (The recursion
updates the first item with the matching code in place, exactly what
`findIndex` + mutation does.) -/
def addItem : List ExtractedPayrollItem → String → String → ℚ → List ExtractedPayrollItem
  | [], c, d, v => [⟨c, d, v⟩]
  | it :: rest, c, d, v =>
    if it.code = c then ⟨it.code, it.description, it.value + v⟩ :: rest
    else it :: addItem rest c d v

/-- `extractERPPayrollItems(text, codes)` (lines 159-215). -/
def extractERPPayrollItems (text : String) (codes : List String) :
    List ExtractedPayrollItem :=
  (jsSplitNewline text).foldl
    (fun items line =>
      match erpLineParsed line with
      | none => items
      | some it =>
        if codes.contains it.code then addItem items it.code it.description it.value
        else items)
    []

/-! ### `extractRHPayrollItems` (lines 221-290) -/

/-- Tail of the second RH pattern after the description: `\s+([\d\.,]+)` with
the value captured (the capture is unused by the extractor). -/
def tailAlt2 (l : List Char) : Option String :=
  match spanP jsWs l with
  | ([], _) => none
  | (_ :: _, r1) =>
    match spanP valChar r1 with
    | ([], _) => none
    | (v, _) => some ⟨v⟩

/-- Position matcher for the second RH pattern
`/\b(\d{4})\b\s+([A-Za-zÀ-úÇç0-9\.\s-]+)\s+([\d\.,]+)/i`. -/
def matchP2At (prev : Option Char) (l : List Char) :
    Option (String × String × String) :=
  if wordness prev then none
  else
    match takeExactP jsDigit 4 l with
    | none => none
    | some (ds, r1) =>
      if wordness r1.head? then none
      else
        match spanP jsWs r1 with
        | ([], _) => none
        | (sep, rest) =>
          match trySepDesc tailAlt2 descChar sep.reverse rest with
          | some (d, v) => some (⟨ds⟩, d, v)
          | none => none

/-- Position matcher for the third RH pattern
`/\b(\d{3,4})\b\s+([A-Za-zÀ-úÇç0-9\.\s-]+)\s+[\d\.,]+/i`: the greedy
`\d{3,4}` tries four digits first, falling back to three. -/
def matchP3At (prev : Option Char) (l : List Char) : Option (String × String) :=
  if wordness prev then none
  else
    let attempt : Nat → Option (String × String) := fun n =>
      match takeExactP jsDigit n l with
      | none => none
      | some (ds, r1) =>
        if wordness r1.head? then none
        else
          match spanP jsWs r1 with
          | ([], _) => none
          | (sep, rest) =>
            match trySepDesc tailAlt descChar sep.reverse rest with
            | some (d, _) => some (⟨ds⟩, d)
            | none => none
    match attempt 4 with
    | some r => some r
    | none => attempt 3

/-- Position matcher for the end-anchored fallback value regex
`/(\d+[\d\.,]+)$/`: the earliest position whose whole suffix consists of value
characters, starts with a digit, and has length at least two. -/
def matchEndValAt (_prev : Option Char) (l : List Char) : Option String :=
  match l with
  | [] => none
  | c :: rest =>
    if jsDigit c && !rest.isEmpty && rest.all valChar then some ⟨c :: rest⟩
    else none

def searchP2 (l : List Char) : Option (String × String × String) :=
  searchAux matchP2At none l

def searchP3 (l : List Char) : Option (String × String) :=
  searchAux matchP3At none l

def searchEndValue (l : List Char) : Option String :=
  searchAux matchEndValAt none l

/-- The value of one RH line (lines 246-261): the `R$` regex capture, else
the end-anchored fallback, else `'0'`; then normalisation and
`parseFloat(valueStr || '0')` — as in `erpLineValue`, a value that normalises
to the empty string falls back to `'0'` and parses to `0`. -/
def rhPdfLineValue (l : List Char) : Option ℚ :=
  let valueStr := jsNormalizeNumber
    (match searchRValue l with
     | some v => v
     | none =>
       match searchEndValue l with
       | some v => v
       | none => "0")
  parseFloatJS (if valueStr = "" then "0" else valueStr)

/-- One line of `extractRHPayrollItems` (lines 228-263): the three patterns
are tried in order, the code is padded to four digits with `padStart(4, '0')`,
and the value is that of `rhPdfLineValue`. -/
def rhPdfLineParsed (line : String) : Option ExtractedPayrollItem :=
  let l := line.data
  let mm : Option (String × String) :=
    match searchMain l with
    | some (c, d, _) => some (c, d)
    | none =>
      match searchP2 l with
      | some (c, d, _) => some (c, d)
      | none => searchP3 l
  match mm with
  | none => none
  | some (rawCode, desc) =>
    let code := padStart4 rawCode
    match rhPdfLineValue l with
    | none => none
    | some value => some ⟨code, trimJS desc, value⟩

/-- `extractRHPayrollItems(text, codes)` (lines 221-290). -/
def extractRHPayrollItems (text : String) (codes : List String) :
    List ExtractedPayrollItem :=
  (jsSplitNewline text).foldl
    (fun items line =>
      match rhPdfLineParsed line with
      | none => items
      | some it =>
        if codes.contains it.code then addItem items it.code it.description it.value
        else items)
    []

/-! ### `extractDate` (lines 86-154) -/

/-- Case-insensitive literal match (`pat` given lower case); returns the
consumed characters as they appear in the text, and the rest. -/
def matchCI : List Char → List Char → Option (List Char × List Char)
  | [], l => some ([], l)
  | _ :: _, [] => none
  | p :: ps, c :: cs =>
    if lowerChar c = p then (matchCI ps cs).map (fun r => (c :: r.1, r.2)) else none

/-- The label `Data\s+de\s+Refer[êe]ncia:` (with the `i` flag); returns the
rest of the input after the colon. -/
def matchLabelCore (l : List Char) : Option (List Char) :=
  match matchCI ['d', 'a', 't', 'a'] l with
  | none => none
  | some (_, r1) =>
    match spanP jsWs r1 with
    | ([], _) => none
    | (_ :: _, r2) =>
      match matchCI ['d', 'e'] r2 with
      | none => none
      | some (_, r3) =>
        match spanP jsWs r3 with
        | ([], _) => none
        | (_ :: _, r4) =>
          match matchCI ['r', 'e', 'f', 'e', 'r'] r4 with
          | none => none
          | some (_, r5) =>
            match r5 with
            | c :: r6 =>
              if c = 'e' || c = 'E' || c = 'ê' || c = 'Ê' then
                match matchCI ['n', 'c', 'i', 'a', ':'] r6 with
                | none => none
                | some (_, r7) => some r7
              else none
            | [] => none

/-- The `(\d{2}\/\d{4})` capture. -/
def matchSlashDate (l : List Char) : Option String :=
  match takeExactP jsDigit 2 l with
  | none => none
  | some (a, r1) =>
    match r1 with
    | '/' :: r2 =>
      match takeExactP jsDigit 4 r2 with
      | none => none
      | some (b, _) => some ⟨a ++ '/' :: b⟩
    | _ => none

/-- Position matcher for rule 1 of the ERP branch:
`/Data\s+de\s+Refer[êe]ncia:[\s\n]*(\d{2}\/\d{4})/i`. -/
def matchDataRefAt (_prev : Option Char) (l : List Char) : Option String :=
  match matchLabelCore l with
  | none => none
  | some r7 => matchSlashDate (r7.dropWhile jsWs)

/-- Position matcher for rule 2 of the ERP branch:
`/Data\s+de\s+Refer[êe]ncia:\s*\n\s*(\d{2}\/\d{4})/i` — the whitespace run
after the colon must contain a literal newline. -/
def matchDataRefNLAt (_prev : Option Char) (l : List Char) : Option String :=
  match matchLabelCore l with
  | none => none
  | some r7 =>
    match spanP jsWs r7 with
    | (w, r8) => if w.contains '\n' then matchSlashDate r8 else none

/-- Position matcher for the context-free date rule `/(\d{2})\/(\d{4})/`. -/
def matchGenericDateAt (_prev : Option Char) (l : List Char) : Option String :=
  matchSlashDate l

/-- The month-name alternation of line 114, in source order and lower-cased
(the patterns carry the `i` flag). -/
def monthAlternatives : List String :=
  ["janeiro", "fevereiro", "março", "marco", "abril", "maio", "junho", "julho",
   "agosto", "setembro", "outubro", "novembro", "dezembro"]

/-- Try the month alternatives in order; returns the alternative that matched,
the consumed text and the rest. -/
def tryAlts : List String → List Char → Option (String × List Char × List Char)
  | [], _ => none
  | alt :: alts, l =>
    match matchCI alt.data l with
    | some (k, r) => some (alt, k, r)
    | none => tryAlts alts l

/-- Position matcher for rule 1 of the RH branch:
`(Janeiro|...|Dezembro)\/\d{4}` with the `i` flag; returns the matched
substring as it appears in the text. -/
def matchMonthSlashYearAt (_prev : Option Char) (l : List Char) : Option String :=
  match tryAlts monthAlternatives l with
  | none => none
  | some (_, mk, r1) =>
    match r1 with
    | '/' :: r2 =>
      match takeExactP jsDigit 4 r2 with
      | none => none
      | some (y, _) => some ⟨mk ++ '/' :: y⟩
    | _ => none

/-- The inner pattern of rule 2 of the RH branch:
`(Janeiro|...)\s*\/\s*\d{4}` (with `i`); returns the matched substring. -/
def matchMonthSpacedSlashYear (l : List Char) : Option String :=
  match tryAlts monthAlternatives l with
  | none => none
  | some (_, mk, r1) =>
    match spanP jsWs r1 with
    | (s1, r2) =>
      match r2 with
      | '/' :: r3 =>
        match spanP jsWs r3 with
        | (s2, r4) =>
          match takeExactP jsDigit 4 r4 with
          | none => none
          | some (y, _) => some ⟨mk ++ s1 ++ '/' :: (s2 ++ y)⟩
      | _ => none

/-- The lazy `.*?` scan of rules 2 and 3 of the RH branch: `.` does not match
newline characters, so the scan stops at the first `\n`/`\r`. -/
def lazyScanNoNL {α : Type} (f : List Char → Option α) : List Char → Option α
  | [] => none
  | c :: r =>
    match f (c :: r) with
    | some v => some v
    | none => if c = '\n' || c = '\r' then none else lazyScanNoNL f r

/-- Position matcher for rule 2 of the RH branch:
`/Data\s+de\s+Refer[êe]ncia:.*?(Janeiro|...)\s*\/\s*\d{4}/i`, followed by the
re-match of the month pattern on the matched fragment (lines 123-130): the
returned value is the month/year substring. -/
def matchRH2At (_prev : Option Char) (l : List Char) : Option String :=
  match matchLabelCore l with
  | none => none
  | some r7 => lazyScanNoNL matchMonthSpacedSlashYear r7

/-- Position matcher for rule 3 of the RH branch:
`/Data\s+de\s+Refer[êe]ncia:.*?(\d{2})\/(\d{4})/i`. -/
def matchRH3At (_prev : Option Char) (l : List Char) : Option String :=
  match matchLabelCore l with
  | none => none
  | some r7 => lazyScanNoNL matchSlashDate r7

/-- The shared tail of `extractDate` (lines 140-153): the last-resort generic
date search, then the current date. -/
def lastResort (l : List Char) (now : String) : String :=
  match searchAux matchGenericDateAt none l with
  | some d => d
  | none => now

/-- `extractDate(text, source)` (lines 86-154); `now` stands for the
`MM/YYYY` rendering of `new Date()` built by lines 150-153. -/
def extractDate (text : String) (source : PDFSource) (now : String) : String :=
  let l := text.data
  match source with
  | .ERP =>
    match searchAux matchDataRefAt none l with
    | some d => d
    | none =>
      match searchAux matchDataRefNLAt none l with
      | some d => d
      | none =>
        match searchAux matchGenericDateAt none l with
        | some d => d
        | none => lastResort l now
  | .RH =>
    match searchAux matchMonthSlashYearAt none l with
    | some d => d
    | none =>
      match searchAux matchRH2At none l with
      | some d => d
      | none =>
        match searchAux matchRH3At none l with
        | some d => d
        | none => lastResort l now

/-! ### `processPDF` (lines 296-339) -/

/-- The per-page item extraction of lines 306-312. -/
def pageItems (page : String) (codes : List String) (source : PDFSource) :
    List ExtractedPayrollItem :=
  match source with
  | .ERP => extractERPPayrollItems page codes
  | .RH => extractRHPayrollItems page codes

/-- The page-processing part of `processPDF` (lines 299-338), taking the page
texts produced by `extractTextFromPDF` as input; a page contributes only when
it yields items, and a document with no contributing page yields the single
current-date placeholder. -/
def processPages (pages : List String) (codes : List String) (source : PDFSource)
    (now : String) : List ProcessedPayslip :=
  let results := pages.filterMap (fun page =>
    let date := extractDate page source now
    let items := pageItems page codes source
    if 0 < items.length then some ⟨date, items, source⟩ else none)
  if results.isEmpty then [⟨now, [], source⟩] else results

end PdfExtractor

namespace RhExtractor

/-! ## `src/server/rh-extractor.ts` -/

/-- The `monthMap` of lines 43-48, in source order. -/
def monthMap : List (String × String) :=
  [("janeiro", "01"), ("fevereiro", "02"), ("março", "03"), ("marco", "03"),
   ("abril", "04"), ("maio", "05"), ("junho", "06"), ("julho", "07"),
   ("agosto", "08"), ("setembro", "09"), ("outubro", "10"),
   ("novembro", "11"), ("dezembro", "12")]

def mapGet (m : List (String × String)) (k : String) : Option String :=
  (m.find? (fun p => p.1 = k)).map (fun p => p.2)

/-- `Object.keys(monthMap)`, the alternation order of the date pattern. -/
def monthKeys : List String := monthMap.map (fun p => p.1)

/-- The `[\s]*(\d{4})\b` tail of date pattern 1: optional whitespace, then
the four-digit year capture, with a word boundary after it. -/
def rhDateYear (r : List Char) : Option String :=
  match takeExactP jsDigit 4 (r.dropWhile jsWs) with
  | none => none
  | some (y, r5) => if wordness r5.head? then none else some ⟨y⟩

/-- The greedy optional `(?:de)?` (with the `i` flag) followed by the year
tail: the variant with `de` is tried first. -/
def rhDateAttempt (rest : List Char) : Option String :=
  match
    (match PdfExtractor.matchCI ['d', 'e'] rest with
     | some (_, r3) => rhDateYear r3
     | none => none)
  with
  | some y => some y
  | none => rhDateYear rest

/-- After the month name of date pattern 1: `[\/\s]*(?:de)?[\s]*(\d{4})\b`,
with the greedy backtracking over the `[\/\s]*` run (`sepRev` is the reversed
part of the run still being claimed; all lengths down to zero are tried). -/
def trySepDe : List Char → List Char → Option String
  | [], rest =>
    match rhDateAttempt rest with
    | some y => some y
    | none => none
  | s :: ss, rest =>
    match rhDateAttempt rest with
    | some y => some y
    | none => trySepDe ss (s :: rest)

/-- Position matcher for date pattern 1 of `extractDate` (line 52):
`\b(janeiro|...|dezembro)[\/\s]*(?:de)?[\s]*(\d{4})\b` with the `i` flag.
Returns the month capture as it appears in the text and the year capture. -/
def matchRhDate1At (prev : Option Char) (l : List Char) :
    Option (String × String) :=
  if wordness prev then none
  else
    match PdfExtractor.tryAlts monthKeys l with
    | none => none
    | some (_, mk, r1) =>
      match spanP (fun c => c = '/' || jsWs c) r1 with
      | (sepRun, r2) =>
        match trySepDe sepRun.reverse r2 with
        | none => none
        | some y => some (⟨mk⟩, y)

/-- Position matcher for date pattern 2 of `extractDate` (line 53):
`/(\d{2})[\/\s-](\d{4})/i`. -/
def matchRhDate2At (_prev : Option Char) (l : List Char) :
    Option (String × String) :=
  match takeExactP jsDigit 2 l with
  | none => none
  | some (a, r1) =>
    match r1 with
    | c :: r2 =>
      if c = '/' || jsWs c || c = '-' then
        match takeExactP jsDigit 4 r2 with
        | none => none
        | some (b, _) => some (⟨a⟩, ⟨b⟩)
      else none
    | [] => none

/-- `extractDate(text)` of `rh-extractor.ts` (lines 42-66): the two patterns
are tried in order; a month-name capture is converted through `monthMap`
(after `toLowerCase`), a numeric capture is returned as `MM/YYYY`; `null`
(here `none`) when neither pattern matches. -/
def extractDate (text : String) : Option String :=
  let l := text.data
  match searchAux matchRhDate1At none l with
  | some (mk, y) =>
    match mapGet monthMap (lowerStr mk) with
    | some mm => some (mm ++ "/" ++ y)
    | none => some (mk ++ "/" ++ y)
  | none =>
    match searchAux matchRhDate2At none l with
    | some (a, b) =>
      match mapGet monthMap (lowerStr a) with
      | some mm => some (mm ++ "/" ++ b)
      | none => some (a ++ "/" ++ b)
    | none => none

/-! ### the per-code line pattern of `extractPayrollItems` (line 77)

`(?:.*?\s)?\b CODE \b [\s.]* ([^\n\r]+?) \s+ (?:\d+(?:\.\d{2})?\s+)?
(\d{2}\.\d{4})? \s* R? \$? \s* (\d+(?:[.,]\d{3})*(?:[.,]\d{2}))` with the
`i` flag, applied per line (so `[^\n\r]` is any character and `.` never meets
a newline). -/

/-- The star-then-final part of the value capture:
`(?:[.,]\d{3})*(?:[.,]\d{2})` with greedy star backtracking (an iteration is
preferred; on failure of the remainder its last digit is given back and the
group is re-read as the final `[.,]\d{2}`). -/
def rhValTail : List Char → Option (List Char)
  | s :: a :: b :: c :: rest =>
    if (s = '.' || s = ',') && jsDigit a && jsDigit b then
      if jsDigit c then
        match rhValTail rest with
        | some t => some (s :: a :: b :: c :: t)
        | none => some [s, a, b]
      else some [s, a, b]
    else none
  | [s, a, b] =>
    if (s = '.' || s = ',') && jsDigit a && jsDigit b then some [s, a, b] else none
  | _ => none

/-- The value capture `(\d+(?:[.,]\d{3})*(?:[.,]\d{2}))`: a maximal digit run
(shrinking it can never expose a `[.,]`), then `rhValTail`. -/
def rhValue (l : List Char) : Option String :=
  match spanP jsDigit l with
  | ([], _) => none
  | (dr, r1) =>
    match rhValTail r1 with
    | none => none
    | some t => some ⟨dr ++ t⟩

/-- `\s*R?\$?\s*` then the value capture: each optional literal is consumed
when present (skipping a present `R`/`$` leaves it in front of the digit run,
so no backtracking is needed). -/
def rhAfterMonth (l : List Char) : Option String :=
  let r1 := l.dropWhile jsWs
  let r2 := match r1 with
            | c :: r => if c = 'R' || c = 'r' then r else r1
            | [] => r1
  let r3 := match r2 with
            | '$' :: r => r
            | _ => r2
  rhValue (r3.dropWhile jsWs)

/-- The optional month capture `(\d{2}\.\d{4})?` (greedy, with fall-back to
the empty capture) followed by the rest of the pattern; returns (month
capture, value capture). -/
def rhAfterA (l : List Char) : Option (String × String) :=
  match
    (match l with
     | d1 :: d2 :: '.' :: y1 :: y2 :: y3 :: y4 :: r =>
       if jsDigit d1 && jsDigit d2 && jsDigit y1 && jsDigit y2 && jsDigit y3 && jsDigit y4 then
         (rhAfterMonth r).map (fun v => (⟨[d1, d2, '.', y1, y2, y3, y4]⟩, v))
       else none
     | _ => none)
  with
  | some res => some res
  | none => (rhAfterMonth l).map (fun v => ("", v))

/-- The optional group `(?:\d+(?:\.\d{2})?\s+)?` tried with its inner option
greedily (digits, with then without the `.\d{2}`, each followed by `\s+`),
continuing with `rhAfterA`; `none` when no variant of the group lets the rest
of the pattern match. -/
def rhTryA (l : List Char) : Option (String × String) :=
  match spanP jsDigit l with
  | ([], _) => none
  | (_ :: _, r1) =>
    match
      (match r1 with
       | '.' :: a :: b :: r2 =>
         if jsDigit a && jsDigit b then
           match spanP jsWs r2 with
           | ([], _) => none
           | (_ :: _, r3) => rhAfterA r3
         else none
       | _ => none)
    with
    | some res => some res
    | none =>
      match spanP jsWs r1 with
      | ([], _) => none
      | (_ :: _, r4) => rhAfterA r4

/-- `\s+` after the lazy description, then the optional numeric group (tried
first, greedily), then the rest. -/
def rhTail (l : List Char) : Option (String × String) :=
  match spanP jsWs l with
  | ([], _) => none
  | (_ :: _, r1) =>
    match rhTryA r1 with
    | some res => some res
    | none => rhAfterA r1

/-- The lazy description `([^\n\r]+?)`: grown character by character, shortest
first (`descRev` holds the current candidate reversed). -/
def rhDescGrow : List Char → List Char → Option (String × String × String)
  | [], descRev =>
    match rhTail [] with
    | some (m, v) => some (⟨descRev.reverse⟩, m, v)
    | none => none
  | c :: r, descRev =>
    match rhTail (c :: r) with
    | some (m, v) => some (⟨descRev.reverse⟩, m, v)
    | none => rhDescGrow r (c :: descRev)

/-- `[\s.]*` (greedy, all lengths down to the empty run) followed by the lazy
description and the tail. -/
def rhTrySep : List Char → List Char → Option (String × String × String)
  | sepRev, rest =>
    match
      (match rest with
       | [] => none
       | c :: r => rhDescGrow r [c])
    with
    | some res => some res
    | none =>
      match sepRev with
      | [] => none
      | s :: ss => rhTrySep ss (s :: rest)

/-- Everything after the code and its word boundary. -/
def rhRest (l : List Char) : Option (String × String × String) :=
  match spanP (fun c => jsWs c || c = '.') l with
  | (sepRun, r) => rhTrySep sepRun.reverse r

/-- Position matcher for the code occurrence.  With `requireWs` the position
must be immediately preceded by a whitespace character (the `(?:.*?\s)`
prefix); without it the plain `\b` assertion applies. -/
def matchRhAt (requireWs : Bool) (codeL : List Char) (prev : Option Char)
    (l : List Char) : Option (String × String × String) :=
  let pre :=
    if requireWs then
      match prev with
      | some c => jsWs c
      | none => false
    else wordness prev != wordness codeL.head?
  if !pre then none
  else
    match PdfExtractor.matchCI codeL l with
    | none => none
    | some (k, rest) =>
      if wordness rest.head? != wordness k.getLast? then rhRest rest else none

/-- The whole-line match of the pattern of line 77.  The JS search first runs
through the alternatives that use the `(?:.*?\s)` prefix (every
whitespace-preceded occurrence of the code, left to right), and only then the
prefix-less alternative at each start position (every `\b`-preceded
occurrence, left to right). -/
def rhMatchLine (code : String) (line : List Char) :
    Option (String × String × String) :=
  let codeL := code.data.map lowerChar
  match searchAux (matchRhAt true codeL) none line with
  | some r => some r
  | none => searchAux (matchRhAt false codeL) none line

/-- An element of the `matches` array of lines 89. -/
structure RhMatch where
  description : String
  value : ℚ
  month : String
deriving DecidableEq

/-- The lines of a page, split by `/[\n\r]+/` (line 70). -/
def linesOf (text : String) : List (List Char) :=
  (splitNLRuns text).map String.data

/-- The match-collection loop of lines 74-92 for one code. -/
def collectMatches (lines : List (List Char)) (code : String) : List RhMatch :=
  lines.filterMap (fun line =>
    match rhMatchLine code line with
    | none => none
    | some (d, m, vs) =>
      let description := trimJS d
      match parseFloatJS (jsNormalizeNumber vs) with
      | none => none
      | some value =>
        if description = "" then none else some ⟨description, value, m⟩)

/-- `monthGroups.set(k, {value, description})`: overwrite in place, append
when absent (JS `Map` keeps the original insertion position). -/
def setMap (m : List (String × ℚ × String)) (k : String) (v : ℚ) (d : String) :
    List (String × ℚ × String) :=
  match m with
  | [] => [(k, v, d)]
  | e :: rest => if e.1 = k then (k, v, d) :: rest else e :: setMap rest k v d

def getMap (m : List (String × ℚ × String)) (k : String) : Option (ℚ × String) :=
  (m.find? (fun e => e.1 = k)).map (fun e => e.2)

/-- One step of the per-month grouping of lines 95-101: a strictly larger
value replaces the month's entry (`match.value > currentValue`, with
`currentValue` defaulting to `0` for an unseen month). -/
def mgStep (mg : List (String × ℚ × String)) (m : RhMatch) :
    List (String × ℚ × String) :=
  let currentValue :=
    match getMap mg m.month with
    | some e => e.1
    | none => 0
  if currentValue < m.value then setMap mg m.month m.value m.description else mg

/-- The per-month grouping of lines 95-101: for each month key keep the match
with the largest value. -/
def monthGroupsOf (ms : List RhMatch) : List (String × ℚ × String) :=
  ms.foldl mgStep []

/-- One step of the global maximum of lines 106-111 (`data.value > maxValue`
replaces). -/
def bestStep (acc : ℚ × String) (e : String × ℚ × String) : ℚ × String :=
  if acc.1 < e.2.1 then (e.2.1, e.2.2) else acc

/-- The global maximum of lines 103-111 over the month groups, starting from
`maxValue = 0`, `maxDescription = ''`. -/
def bestOf (mg : List (String × ℚ × String)) : ℚ × String :=
  mg.foldl bestStep (0, "")

/-- `extractPayrollItems(text, codes)` of `rh-extractor.ts` (lines 68-119). -/
def extractPayrollItems (text : String) (codes : List String) :
    List ExtractedPayrollItem :=
  let lines := linesOf text
  codes.filterMap (fun code =>
    let mg := monthGroupsOf (collectMatches lines code)
    let best := bestOf mg
    if 0 < best.1 then some ⟨code, best.2, best.1⟩ else none)

/-- The page-processing part of `processPDF` of `rh-extractor.ts`
(lines 125-147): pages whose date is `null` are skipped, pages without items
contribute nothing, and there is no empty-document placeholder. -/
def processPages (pages : List String) (codes : List String) :
    List ProcessedPayslip :=
  pages.filterMap (fun page =>
    match extractDate page with
    | none => none
    | some date =>
      let items := extractPayrollItems page codes
      if 0 < items.length then some ⟨date, items, .RH⟩ else none)

end RhExtractor

namespace Routes

/-! ## The consolidation of `GET /payroll-data` (`src/server/routes.ts`,
lines 397-457)

A stored `payroll_data` record is modelled with its parsed `codeData`; the
finished `codeToDisplayMap` (built from `predefinedCodes` and the user's code
groups by successive `Map.set`) is abstracted as a lookup function
`M : String → Option String`. -/

/-- A stored payslip row: `date` plus the parsed `codeData` items. -/
structure PayrollRow where
  date : String
  items : List ExtractedPayrollItem
deriving DecidableEq

/-- `codeToDisplayMap.get(item.code) || item.code` (lines 426, 446). -/
def displayOf (M : String → Option String) (c : String) : String :=
  match M c with
  | some d => d
  | none => c

/-- Insertion-order accumulation of a JS `Set`: first occurrences, in order.
`seen` is the set of elements already emitted. -/
def dedupAcc : List String → List String → List String
  | [], _ => []
  | x :: rest, seen =>
    if seen.contains x then dedupAcc rest seen else x :: dedupAcc rest (x :: seen)

/-- `uniqueDates` (lines 415, 421). -/
def uniqueDates (pd : List PayrollRow) : List String :=
  dedupAcc (pd.map (fun r => r.date)) []

/-- `uniqueDisplayCodes` (lines 416, 420-429). -/
def uniqueDisplayCodes (M : String → Option String) (pd : List PayrollRow) :
    List String :=
  dedupAcc (pd.flatMap (fun r => r.items.map (fun it => displayOf M it.code))) []

/-- `result[displayCode] = 0` for every display code (lines 436-438). -/
def initRow (dcs : List String) : List (String × ℚ) := dcs.map (fun dc => (dc, 0))

def rowGet (row : List (String × ℚ)) (k : String) : Option ℚ :=
  (row.find? (fun e => e.1 = k)).map (fun e => e.2)

/-- Lines 446-451: if `result[displayCode]` is a number add to it, otherwise
set it (updating the first binding in place, appending when absent). -/
def rowAdd : List (String × ℚ) → String → ℚ → List (String × ℚ)
  | [], dc, v => [(dc, v)]
  | e :: rest, dc, v =>
    if e.1 = dc then (e.1, e.2 + v) :: rest else e :: rowAdd rest dc v

/-- The consolidated row for one date (lines 433-452): all display codes
initialised to `0`, then every item of every payslip with that date added
through the display-code mapping. -/
def rowFor (M : String → Option String) (pd : List PayrollRow) (d : String) :
    List (String × ℚ) :=
  ((pd.filter (fun r => r.date = d)).flatMap (fun r => r.items)).foldl
    (fun row it => rowAdd row (displayOf M it.code) it.value)
    (initRow (uniqueDisplayCodes M pd))

/-- The consolidated data (lines 432-455): one row per unique date. -/
def consolidatedData (M : String → Option String) (pd : List PayrollRow) :
    List (String × List (String × ℚ)) :=
  (uniqueDates pd).map (fun d => (d, rowFor M pd d))

end Routes

/-! ## Derived views used by the theorem statements -/

namespace PdfExtractor

/-- The per-page stream of parsed-and-wanted line items of
`extractERPPayrollItems`, in line order (parse each line, keep those whose
code is requested).  `extractERPPayrollItems` is exactly the duplicate-summing
accumulation of this stream (`extractERP_eq_buildItems` below). -/
def erpWanted (text : String) (codes : List String) : List ExtractedPayrollItem :=
  (jsSplitNewline text).filterMap (fun line =>
    match erpLineParsed line with
    | none => none
    | some it => if codes.contains it.code then some it else none)

/-- The same stream for `extractRHPayrollItems`. -/
def rhPdfWanted (text : String) (codes : List String) : List ExtractedPayrollItem :=
  (jsSplitNewline text).filterMap (fun line =>
    match rhPdfLineParsed line with
    | none => none
    | some it => if codes.contains it.code then some it else none)

/-- The duplicate-summing accumulation shared by both extractors. -/
def buildItems (L : List ExtractedPayrollItem) : List ExtractedPayrollItem :=
  L.foldl (fun items it => addItem items it.code it.description it.value) []

/-- Sum of the values carried by a given code in a stream of line items. -/
def sumValues (L : List ExtractedPayrollItem) (c : String) : ℚ :=
  ((L.filter (fun e => e.code = c)).map (fun e => e.value)).sum

end PdfExtractor

/-- The `MM/YYYY` shape: two digits, a slash, four digits. -/
def isMMYYYY (s : String) : Bool :=
  match s.data with
  | [a, b, s2, c, d, e, f] =>
    jsDigit a && jsDigit b && s2 = '/' && jsDigit c && jsDigit d && jsDigit e && jsDigit f
  | _ => false

/-! ## Concrete sample inputs used by witnesses and counterexamples -/

/-- An ERP payslip line. -/
def erpSampleLine : String := "0001 SALARIO R$ 10,00"

/-- An ERP page on which code 0001 occurs twice. -/
def erpDupText : String := "0001 SALARIO R$ 10,00\n0001 EXTRA R$ 5,00"

/-- An ERP line whose value field is malformed. -/
def erpMalformedLine : String := "0001 SALARIO R$ 12,3,4"

/-- An ERP line whose value capture consists only of dots, normalising to the
empty string. -/
def erpAllDotsLine : String := "0001 X R$ .."

/-- An ERP line whose value capture normalises to a string with no parseable
numeric prefix. -/
def erpNaNLine : String := "0001 X R$ ,,"

/-- An RH page on which code 0001 occurs twice (values 100,00 and 50,00). -/
def rhDupText : String := "0001 SALARIO 100,00\n0001 SALARIO 50,00"

/-- An RH line carrying the three-digit code token 002. -/
def rhPad3Line : String := "002 ADICIONAL 45,00"

/-- An RH line carrying the two-digit code token 02. -/
def rhPad2Line : String := "02 ADICIONAL 45,00"

/-- A page with a bare date before a label-anchored reference date. -/
def dateSampleText : String := "01/2020 Data de Referencia: 05/2022"

namespace Routes

/-- A sample finished code-to-display map: codes 0100 and 0200 alias to the
display code G. -/
def M0 : String → Option String := fun c =>
  if c = "0100" || c = "0200" then some ("G") else none

/-- Two stored payslips for the same date carrying the two aliased codes. -/
def pd0 : List PayrollRow :=
  [⟨"01/2024", [⟨"0100", "A", mkRat 10 1⟩]⟩,
   ⟨"01/2024", [⟨"0200", "B", mkRat 5 1⟩]⟩]

end Routes

/-! ## General lemmas about the scanner and accumulation primitives -/

theorem takeExactP_spec {p : Char → Bool} :
    ∀ {n : Nat} {l ds r : List Char}, takeExactP p n l = some (ds, r) →
      ds.length = n ∧ ds.all p = true := by
  intro n
  induction n with
  | zero =>
    intro l ds r h
    simp [takeExactP] at h
    obtain ⟨rfl, rfl⟩ := h
    simp
  | succ n ih =>
    intro l ds r h
    cases l with
    | nil => simp [takeExactP] at h
    | cons c l' =>
      simp only [takeExactP] at h
      by_cases hc : p c
      · rw [if_pos hc] at h
        cases ht : takeExactP p n l' with
        | none => rw [ht] at h; simp at h
        | some pr =>
          rw [ht] at h
          simp at h
          obtain ⟨hds, _⟩ := h
          obtain ⟨h1, h2⟩ := ih ht
          subst hds
          simp [h1, h2, hc]
      · rw [if_neg hc] at h; simp at h

theorem matchCI_lower :
    ∀ {pat l k r : List Char}, PdfExtractor.matchCI pat l = some (k, r) →
      k.map lowerChar = pat := by
  intro pat
  induction pat with
  | nil =>
    intro l k r h
    simp [PdfExtractor.matchCI] at h
    obtain ⟨rfl, rfl⟩ := h
    simp
  | cons p ps ih =>
    intro l k r h
    cases l with
    | nil => simp [PdfExtractor.matchCI] at h
    | cons c cs =>
      simp only [PdfExtractor.matchCI] at h
      by_cases hc : lowerChar c = p
      · rw [if_pos hc] at h
        cases hm : PdfExtractor.matchCI ps cs with
        | none => rw [hm] at h; simp at h
        | some pr =>
          rw [hm] at h
          simp at h
          obtain ⟨hk, _⟩ := h
          subst hk
          simp [ih hm, hc]
      · rw [if_neg hc] at h; simp at h

theorem tryAlts_spec :
    ∀ {alts : List String} {l : List Char} {alt : String} {k r : List Char},
      PdfExtractor.tryAlts alts l = some (alt, k, r) →
      alt ∈ alts ∧ k.map lowerChar = alt.data := by
  intro alts
  induction alts with
  | nil => intro l alt k r h; simp [PdfExtractor.tryAlts] at h
  | cons a as ih =>
    intro l alt k r h
    simp only [PdfExtractor.tryAlts] at h
    cases hm : PdfExtractor.matchCI a.data l with
    | none =>
      rw [hm] at h
      obtain ⟨h1, h2⟩ := ih h
      exact ⟨List.mem_cons_of_mem _ h1, h2⟩
    | some pr =>
      obtain ⟨k0, r0⟩ := pr
      rw [hm] at h
      simp at h
      obtain ⟨h1, h2, h3⟩ := h
      subst h1; subst h2
      exact ⟨List.mem_cons_self _ _, matchCI_lower hm⟩

theorem searchAux_some {α : Type} {f : Option Char → List Char → Option α} :
    ∀ {l : List Char} {prev : Option Char} {r : α},
      searchAux f prev l = some r → ∃ p' l', f p' l' = some r := by
  intro l
  induction l with
  | nil =>
    intro prev r h
    simp only [searchAux] at h
    cases hm : f prev [] with
    | none => simp [hm] at h
    | some v =>
      rw [hm] at h
      simp at h
      exact ⟨prev, [], by rw [hm, h]⟩
  | cons c rest ih =>
    intro prev r h
    simp only [searchAux] at h
    cases hm : f prev (c :: rest) with
    | none =>
      rw [hm] at h
      simp at h
      exact ih h
    | some v =>
      rw [hm] at h
      simp at h
      exact ⟨prev, c :: rest, by rw [hm, h]⟩

namespace PdfExtractor

theorem addItem_map_code (items : List ExtractedPayrollItem) (c d : String) (v : ℚ) :
    (addItem items c d v).map (fun it => it.code) =
      if c ∈ items.map (fun it => it.code)
      then items.map (fun it => it.code)
      else items.map (fun it => it.code) ++ [c] := by
  induction items with
  | nil => simp [addItem]
  | cons x rest ih =>
    by_cases hx : x.code = c
    · simp [addItem, hx]
    · simp only [addItem, if_neg hx, List.map_cons, ih]
      have hne : ¬ c = x.code := fun h => hx h.symm
      by_cases hm : c ∈ rest.map fun it => it.code
      · rw [if_pos hm, if_pos (List.mem_cons.mpr (Or.inr hm))]
      · rw [if_neg hm, if_neg (fun hmem => by
          rcases List.mem_cons.mp hmem with h1 | h1
          · exact hne h1
          · exact hm h1)]
        simp

theorem mem_addItem {items : List ExtractedPayrollItem} {c d : String} {v : ℚ}
    (hnd : (items.map (fun it => it.code)).Nodup) {it : ExtractedPayrollItem}
    (h : it ∈ addItem items c d v) :
    (it ∈ items ∧ ¬ it.code = c) ∨
    (∃ old, items.find? (fun x => x.code = c) = some old ∧
       it = ⟨old.code, old.description, old.value + v⟩) ∨
    ((∀ x ∈ items, ¬ x.code = c) ∧ it = ⟨c, d, v⟩) := by
  induction items with
  | nil =>
    simp [addItem] at h
    exact Or.inr (Or.inr ⟨by simp, h⟩)
  | cons x rest ih =>
    by_cases hx : x.code = c
    · rw [addItem, if_pos hx] at h
      rcases List.mem_cons.mp h with h1 | h2
      · refine Or.inr (Or.inl ⟨x, ?_, ?_⟩)
        · exact List.find?_cons_of_pos _ (by simp [hx])
        · exact h1
      · refine Or.inl ⟨List.mem_cons_of_mem _ h2, ?_⟩
        intro hc
        have hxm : x.code ∉ rest.map (fun it => it.code) := (List.nodup_cons.mp (by simpa using hnd)).1
        exact hxm (hx ▸ hc ▸ List.mem_map_of_mem _ h2)
    · rw [addItem, if_neg hx] at h
      rcases List.mem_cons.mp h with h1 | h2
      · exact Or.inl ⟨by simp [h1], by rw [h1]; exact hx⟩
      · have hnd' : (rest.map (fun it => it.code)).Nodup := (List.nodup_cons.mp (by simpa using hnd)).2
        rcases ih hnd' h2 with hA | hB | hC
        · exact Or.inl ⟨List.mem_cons_of_mem _ hA.1, hA.2⟩
        · obtain ⟨old, hf, he⟩ := hB
          refine Or.inr (Or.inl ⟨old, ?_, he⟩)
          rw [List.find?_cons_of_neg _ (by simp [hx]), hf]
        · refine Or.inr (Or.inr ⟨?_, hC.2⟩)
          intro y hy
          rcases List.mem_cons.mp hy with h1 | h2
          · rw [h1]; exact hx
          · exact hC.1 y h2

theorem buildItems_append (L : List ExtractedPayrollItem) (e : ExtractedPayrollItem) :
    buildItems (L ++ [e]) = addItem (buildItems L) e.code e.description e.value := by
  simp [buildItems, List.foldl_concat]

theorem buildItems_spec (L : List ExtractedPayrollItem) :
    ((buildItems L).map (fun it => it.code)).Nodup ∧
    (∀ c, c ∈ (buildItems L).map (fun it => it.code) ↔ c ∈ L.map (fun e => e.code)) ∧
    (∀ it ∈ buildItems L, it.value = sumValues L it.code ∧
      ∃ v, L.find? (fun e => e.code = it.code) = some ⟨it.code, it.description, v⟩) := by
  induction L using List.reverseRecOn with
  | nil => refine ⟨by simp [buildItems], by simp [buildItems], by simp [buildItems]⟩
  | append_singleton L e ih =>
    obtain ⟨ih1, ih2, ih3⟩ := ih
    rw [buildItems_append]
    refine ⟨?_, ?_, ?_⟩
    · rw [addItem_map_code]
      by_cases hc : e.code ∈ (buildItems L).map (fun it => it.code)
      · rwa [if_pos hc]
      · rw [if_neg hc, ← List.concat_eq_append]
        exact List.Nodup.concat hc ih1
    · intro c
      have hmem : c ∈ (addItem (buildItems L) e.code e.description e.value).map
          (fun it => it.code) ↔
          c ∈ (buildItems L).map (fun it => it.code) ∨ c = e.code := by
        rw [addItem_map_code]
        by_cases hc : e.code ∈ (buildItems L).map (fun it => it.code)
        · rw [if_pos hc]
          constructor
          · exact Or.inl
          · rintro (h | rfl)
            · exact h
            · exact hc
        · rw [if_neg hc]; simp
      rw [hmem, ih2 c]
      simp
    · intro it hit
      rcases mem_addItem ih1 hit with hA | hB | hC
      · obtain ⟨hmem, hne⟩ := hA
        obtain ⟨hval, v0, hfind⟩ := ih3 it hmem
        refine ⟨?_, v0, ?_⟩
        · rw [hval]
          unfold sumValues
          rw [List.filter_append]
          have : List.filter (fun e' => decide (e'.code = it.code)) [e] = [] := by
            rw [List.filter_cons, decide_eq_false (fun h : e.code = it.code => hne h.symm)]
            simp
          rw [this, List.append_nil]
        · rw [List.find?_append, hfind, Option.or_some]
      · obtain ⟨old, hfind, he⟩ := hB
        have hold_mem : old ∈ buildItems L := List.mem_of_find?_eq_some hfind
        have hpc : old.code = e.code := by
          have := List.find?_some hfind
          simpa using this
        obtain ⟨hval, v0, hfindL⟩ := ih3 old hold_mem
        subst he
        refine ⟨?_, v0, ?_⟩
        · show old.value + e.value = sumValues (L ++ [e]) old.code
          rw [hval]
          unfold sumValues
          rw [List.filter_append]
          have : List.filter (fun e' => decide (e'.code = old.code)) [e] = [e] := by
            rw [List.filter_cons, decide_eq_true hpc.symm]
            simp
          rw [this]
          simp
        · show (L ++ [e]).find? (fun e' => e'.code = old.code) =
            some ⟨old.code, old.description, v0⟩
          rw [List.find?_append, hfindL, Option.or_some]
      · obtain ⟨hall, he⟩ := hC
        have hnotin : e.code ∉ L.map (fun x => x.code) := by
          intro hmem
          rw [← ih2 e.code] at hmem
          obtain ⟨x, hx, hxc⟩ := List.mem_map.mp hmem
          exact hall x hx hxc
        have hfilter : List.filter (fun e' => decide (e'.code = e.code)) L = [] := by
          rw [List.filter_eq_nil_iff]
          intro a ha
          simp
          intro hc
          exact hnotin (hc ▸ List.mem_map_of_mem _ ha)
        have hfind : L.find? (fun e' => e'.code = e.code) = none := by
          rw [List.find?_eq_none]
          intro a ha
          simp
          intro hc
          exact hnotin (hc ▸ List.mem_map_of_mem _ ha)
        subst he
        refine ⟨?_, e.value, ?_⟩
        · show e.value = sumValues (L ++ [e]) e.code
          unfold sumValues
          rw [List.filter_append, hfilter]
          simp [List.filter]
        · show (L ++ [e]).find? (fun e' => e'.code = e.code) = some ⟨e.code, e.description, e.value⟩
          rw [List.find?_append, hfind]
          simp [List.find?]

theorem foldl_match_filterMap {β γ : Type} (f : String → Option γ) (step : β → γ → β) :
    ∀ (lines : List String) (acc : β),
      lines.foldl
        (fun b line =>
          match f line with
          | none => b
          | some x => step b x)
        acc
        = (lines.filterMap f).foldl step acc := by
  intro lines
  induction lines with
  | nil => intro acc; rfl
  | cons l rest ih =>
    intro acc
    cases h : f l <;> simp [List.filterMap_cons, h, ih]

theorem extractERP_eq_buildItems (text : String) (codes : List String) :
    extractERPPayrollItems text codes = buildItems (erpWanted text codes) := by
  unfold extractERPPayrollItems erpWanted buildItems
  rw [← foldl_match_filterMap
    (fun line =>
      match erpLineParsed line with
      | none => none
      | some it => if codes.contains it.code then some it else none)
    (fun items it => addItem items it.code it.description it.value)]
  congr 1
  funext items line
  cases hp : erpLineParsed line with
  | none => simp [hp]
  | some it =>
    by_cases hc : it.code ∈ codes
    · simp [hp, hc]
    · simp [hp, hc]

theorem extractRHpdf_eq_buildItems (text : String) (codes : List String) :
    extractRHPayrollItems text codes = buildItems (rhPdfWanted text codes) := by
  unfold extractRHPayrollItems rhPdfWanted buildItems
  rw [← foldl_match_filterMap
    (fun line =>
      match rhPdfLineParsed line with
      | none => none
      | some it => if codes.contains it.code then some it else none)
    (fun items it => addItem items it.code it.description it.value)]
  congr 1
  funext items line
  cases hp : rhPdfLineParsed line with
  | none => simp [hp]
  | some it =>
    by_cases hc : it.code ∈ codes
    · simp [hp, hc]
    · simp [hp, hc]

theorem mem_erpWanted {text : String} {codes : List String} {e : ExtractedPayrollItem}
    (h : e ∈ erpWanted text codes) :
    (∃ line, erpLineParsed line = some e) ∧ e.code ∈ codes := by
  obtain ⟨line, _, hf⟩ := List.mem_filterMap.mp h
  cases hp : erpLineParsed line with
  | none => rw [hp] at hf; simp at hf
  | some it =>
    rw [hp] at hf
    by_cases hc : it.code ∈ codes
    · simp [hc] at hf
      subst hf
      exact ⟨⟨line, hp⟩, hc⟩
    · simp [hc] at hf

theorem mem_rhPdfWanted {text : String} {codes : List String} {e : ExtractedPayrollItem}
    (h : e ∈ rhPdfWanted text codes) :
    (∃ line, rhPdfLineParsed line = some e) ∧ e.code ∈ codes := by
  obtain ⟨line, _, hf⟩ := List.mem_filterMap.mp h
  cases hp : rhPdfLineParsed line with
  | none => rw [hp] at hf; simp at hf
  | some it =>
    rw [hp] at hf
    by_cases hc : it.code ∈ codes
    · simp [hc] at hf
      subst hf
      exact ⟨⟨line, hp⟩, hc⟩
    · simp [hc] at hf

end PdfExtractor

namespace PdfExtractor

theorem matchMainAt_code {prev : Option Char} {l : List Char} {c d v : String}
    (h : matchMainAt prev l = some (c, d, v)) :
    c.data.length = 4 ∧ c.data.all jsDigit = true := by
  unfold matchMainAt at h
  by_cases hw : wordness prev = true
  · simp [hw] at h
  · simp only [hw, if_false, Bool.false_eq_true] at h
    cases ht : takeExactP jsDigit 4 l with
    | none => try rw [ht] at h
              simp at h
    | some pr =>
      obtain ⟨ds, r1⟩ := pr
      try rw [ht] at h
      simp only [] at h
      by_cases hb : wordness r1.head? = true
      · simp [hb] at h
      · simp only [hb, if_false, Bool.false_eq_true] at h
        cases hsp : spanP (fun ch => ch = '.' || jsWs ch) r1 with
        | mk sep rest =>
          try rw [hsp] at h
          cases sep with
          | nil => simp at h
          | cons s ss =>
            simp only [] at h
            cases htr : trySepDesc tailMain descChar (s :: ss).reverse rest with
            | none => try rw [htr] at h
                      simp at h
            | some pr2 =>
              obtain ⟨d0, v0⟩ := pr2
              try rw [htr] at h
              simp at h
              obtain ⟨h1, -, -⟩ := h
              obtain ⟨hlen, hall⟩ := takeExactP_spec ht
              rw [← h1]
              exact ⟨hlen, hall⟩

theorem matchAltAt_code {prev : Option Char} {l : List Char} {c d : String}
    (h : matchAltAt prev l = some (c, d)) :
    c.data.length = 4 ∧ c.data.all jsDigit = true := by
  unfold matchAltAt at h
  by_cases hw : wordness prev = true
  · simp [hw] at h
  · simp only [hw, if_false, Bool.false_eq_true] at h
    cases ht : takeExactP jsDigit 4 l with
    | none => try rw [ht] at h
              simp at h
    | some pr =>
      obtain ⟨ds, r1⟩ := pr
      try rw [ht] at h
      simp only [] at h
      by_cases hb : wordness r1.head? = true
      · simp [hb] at h
      · simp only [hb, if_false, Bool.false_eq_true] at h
        cases hsp : spanP jsWs r1 with
        | mk sep rest =>
          try rw [hsp] at h
          cases sep with
          | nil => simp at h
          | cons s ss =>
            simp only [] at h
            cases htr : trySepDesc tailAlt descChar (s :: ss).reverse rest with
            | none => try rw [htr] at h
                      simp at h
            | some pr2 =>
              obtain ⟨d0, v0⟩ := pr2
              try rw [htr] at h
              simp at h
              obtain ⟨h1, -⟩ := h
              obtain ⟨hlen, hall⟩ := takeExactP_spec ht
              rw [← h1]
              exact ⟨hlen, hall⟩

theorem erpLineParsed_code {line : String} {x : ExtractedPayrollItem}
    (h : erpLineParsed line = some x) :
    x.code.data.length = 4 ∧ x.code.data.all jsDigit = true := by
  unfold erpLineParsed at h
  simp only [] at h
  cases hm : searchMain line.data with
  | some r =>
    obtain ⟨c0, d0, v0⟩ := r
    try rw [hm] at h
    simp only [] at h
    cases hpf : erpLineValue line.data with
    | none => try rw [hpf] at h
              simp at h
    | some value =>
      try rw [hpf] at h
      simp at h
      obtain ⟨prev', l', hat⟩ := searchAux_some hm
      obtain ⟨hlen, hall⟩ := matchMainAt_code hat
      rw [← h]
      exact ⟨hlen, hall⟩
  | none =>
    try rw [hm] at h
    simp only [] at h
    cases ha : searchAlt line.data with
    | none => try rw [ha] at h
              simp at h
    | some pr =>
      obtain ⟨c0, d0⟩ := pr
      try rw [ha] at h
      simp only [] at h
      cases hpf : erpLineValue line.data with
      | none => try rw [hpf] at h
                simp at h
      | some value =>
        try rw [hpf] at h
        simp at h
        obtain ⟨prev', l', hat⟩ := searchAux_some ha
        obtain ⟨hlen, hall⟩ := matchAltAt_code hat
        rw [← h]
        exact ⟨hlen, hall⟩

end PdfExtractor

theorem mem_extract_rhx {text : String} {codes : List String}
    {it : ExtractedPayrollItem}
    (h : it ∈ RhExtractor.extractPayrollItems text codes) :
    ∃ code ∈ codes,
      0 < (RhExtractor.bestOf (RhExtractor.monthGroupsOf
        (RhExtractor.collectMatches (RhExtractor.linesOf text) code))).1 ∧
      it = ⟨code,
        (RhExtractor.bestOf (RhExtractor.monthGroupsOf
          (RhExtractor.collectMatches (RhExtractor.linesOf text) code))).2,
        (RhExtractor.bestOf (RhExtractor.monthGroupsOf
          (RhExtractor.collectMatches (RhExtractor.linesOf text) code))).1⟩ := by
  unfold RhExtractor.extractPayrollItems at h
  obtain ⟨code, hcmem, hf⟩ := List.mem_filterMap.mp h
  simp only [] at hf
  refine ⟨code, hcmem, ?_⟩
  by_cases hb : 0 < (RhExtractor.bestOf (RhExtractor.monthGroupsOf
      (RhExtractor.collectMatches (RhExtractor.linesOf text) code))).1
  · rw [if_pos hb] at hf
    obtain rfl := Option.some_injective _ hf
    exact ⟨hb, rfl⟩
  · rw [if_neg hb] at hf
    simp at hf

/-- C5: for every page text and wanted-code list, each of the three line-item
extractors (`extractERPPayrollItems`, `extractRHPayrollItems`,
`rh-extractor`'s `extractPayrollItems`) returns only items whose code is in
the wanted list: no unrequested code ever appears in the result. -/
theorem c5_extractors_return_only_wanted_codes :
    (∀ (text : String) (codes : List String) (it : ExtractedPayrollItem),
      it ∈ PdfExtractor.extractERPPayrollItems text codes → it.code ∈ codes) ∧
    (∀ (text : String) (codes : List String) (it : ExtractedPayrollItem),
      it ∈ PdfExtractor.extractRHPayrollItems text codes → it.code ∈ codes) ∧
    (∀ (text : String) (codes : List String) (it : ExtractedPayrollItem),
      it ∈ RhExtractor.extractPayrollItems text codes → it.code ∈ codes) := by
  refine ⟨?_, ?_, ?_⟩
  · intro text codes it hit
    rw [PdfExtractor.extractERP_eq_buildItems] at hit
    have h2 := (PdfExtractor.buildItems_spec (PdfExtractor.erpWanted text codes)).2.1
    have hm : it.code ∈ (PdfExtractor.erpWanted text codes).map (fun e => e.code) :=
      (h2 it.code).mp (List.mem_map_of_mem _ hit)
    obtain ⟨e, he, hec⟩ := List.mem_map.mp hm
    have := (PdfExtractor.mem_erpWanted he).2
    rwa [hec] at this
  · intro text codes it hit
    rw [PdfExtractor.extractRHpdf_eq_buildItems] at hit
    have h2 := (PdfExtractor.buildItems_spec (PdfExtractor.rhPdfWanted text codes)).2.1
    have hm : it.code ∈ (PdfExtractor.rhPdfWanted text codes).map (fun e => e.code) :=
      (h2 it.code).mp (List.mem_map_of_mem _ hit)
    obtain ⟨e, he, hec⟩ := List.mem_map.mp hm
    have := (PdfExtractor.mem_rhPdfWanted he).2
    rwa [hec] at this
  · intro text codes it hit
    obtain ⟨code, hc, hpos, rfl⟩ := mem_extract_rhx hit
    exact hc

theorem c5_witness :
    (⟨"0001", "SALARIO", mkRat 10 1⟩ : ExtractedPayrollItem).code ∈
      ["0001", "0002"] :=
  c5_extractors_return_only_wanted_codes.1 erpSampleLine ["0001", "0002"] _
    (by with_unfolding_all decide)

/-- C9: every item returned by `rh-extractor`'s `extractPayrollItems` has a
strictly positive value (an item is only pushed under the `maxValue > 0`
guard, and occurrences that all parse to zero leave `maxValue` at zero, so no
item is produced for them). -/
theorem c9_rh_items_have_positive_value :
    ∀ (text : String) (codes : List String) (it : ExtractedPayrollItem),
      it ∈ RhExtractor.extractPayrollItems text codes → 0 < it.value := by
  intro text codes it hit
  obtain ⟨code, hc, hpos, rfl⟩ := mem_extract_rhx hit
  exact hpos

theorem c9_witness :
    (0 : ℚ) < (⟨"0001", "SALARIO", mkRat 100 1⟩ : ExtractedPayrollItem).value :=
  c9_rh_items_have_positive_value rhDupText ["0001"] _
    (by with_unfolding_all decide)

/-- C10: every item returned by `extractERPPayrollItems` carries a code that
is exactly four digits (the `\b(\d{4})\b` capture), so a wanted code that is
not a four-digit token is never returned. -/
theorem c10_erp_codes_are_four_digit_tokens :
    (∀ (text : String) (codes : List String) (it : ExtractedPayrollItem),
      it ∈ PdfExtractor.extractERPPayrollItems text codes →
      it.code.data.length = 4 ∧ it.code.data.all jsDigit = true) ∧
    (∀ (text : String) (codes : List String) (c : String),
      ¬ (c.data.length = 4 ∧ c.data.all jsDigit = true) →
      ∀ it ∈ PdfExtractor.extractERPPayrollItems text codes, ¬ it.code = c) := by
  have main : ∀ (text : String) (codes : List String) (it : ExtractedPayrollItem),
      it ∈ PdfExtractor.extractERPPayrollItems text codes →
      it.code.data.length = 4 ∧ it.code.data.all jsDigit = true := by
    intro text codes it hit
    rw [PdfExtractor.extractERP_eq_buildItems] at hit
    have h2 := (PdfExtractor.buildItems_spec (PdfExtractor.erpWanted text codes)).2.1
    have hm : it.code ∈ (PdfExtractor.erpWanted text codes).map (fun e => e.code) :=
      (h2 it.code).mp (List.mem_map_of_mem _ hit)
    obtain ⟨e, he, hec⟩ := List.mem_map.mp hm
    obtain ⟨⟨line, hp⟩, -⟩ := PdfExtractor.mem_erpWanted he
    have := PdfExtractor.erpLineParsed_code hp
    rwa [hec] at this
  refine ⟨main, ?_⟩
  intro text codes c hnot it hit hc
  exact hnot (hc ▸ main text codes it hit)

theorem c10_witness :
    (⟨"0001", "SALARIO", mkRat 10 1⟩ : ExtractedPayrollItem).code.data.length = 4 ∧
      (⟨"0001", "SALARIO", mkRat 10 1⟩ : ExtractedPayrollItem).code.data.all jsDigit
        = true :=
  c10_erp_codes_are_four_digit_tokens.1 erpSampleLine ["0001"] _
    (by with_unfolding_all decide)

namespace RhExtractor

theorem getMap_setMap_self (mg : List (String × ℚ × String)) (k : String) (v : ℚ)
    (d : String) : getMap (setMap mg k v d) k = some (v, d) := by
  induction mg with
  | nil => simp [setMap, getMap, List.find?]
  | cons e rest ih =>
    by_cases he : e.1 = k
    · simp [setMap, he, getMap, List.find?]
    · simp only [setMap, if_neg he]
      rw [getMap, List.find?_cons_of_neg _ (by simp [he])]
      exact ih

theorem getMap_setMap_ne (mg : List (String × ℚ × String)) (k k' : String) (v : ℚ)
    (d : String) (hne : ¬ k' = k) : getMap (setMap mg k v d) k' = getMap mg k' := by
  have hkk : ¬ k = k' := fun h => hne h.symm
  induction mg with
  | nil =>
    simp [setMap, getMap, List.find?]
    rw [decide_eq_false hkk]
  | cons e rest ih =>
    by_cases he : e.1 = k
    · simp only [setMap, if_pos he, getMap]
      rw [List.find?_cons_of_neg _ (by simpa using hkk),
        List.find?_cons_of_neg _ (by rw [he]; simpa using hkk)]
    · simp only [setMap, if_neg he, getMap]
      by_cases he' : e.1 = k'
      · rw [List.find?_cons_of_pos _ (by simpa using he'),
          List.find?_cons_of_pos _ (by simpa using he')]
      · rw [List.find?_cons_of_neg _ (by simpa using he'),
          List.find?_cons_of_neg _ (by simpa using he')]
        exact ih

theorem mem_setMap_inv {mg : List (String × ℚ × String)} {k : String} {v : ℚ}
    {d : String} {e : String × ℚ × String} (h : e ∈ setMap mg k v d) :
    e = (k, v, d) ∨ e ∈ mg := by
  induction mg with
  | nil => simp [setMap] at h; exact Or.inl h
  | cons x rest ih =>
    by_cases hx : x.1 = k
    · rw [setMap, if_pos hx] at h
      rcases List.mem_cons.mp h with h1 | h2
      · exact Or.inl h1
      · exact Or.inr (List.mem_cons_of_mem _ h2)
    · rw [setMap, if_neg hx] at h
      rcases List.mem_cons.mp h with h1 | h2
      · exact Or.inr (h1 ▸ List.mem_cons_self _ _)
      · rcases ih h2 with h3 | h3
        · exact Or.inl h3
        · exact Or.inr (List.mem_cons_of_mem _ h3)

theorem getMap_mem {mg : List (String × ℚ × String)} {k : String} {c : ℚ × String}
    (h : getMap mg k = some c) : ∃ e ∈ mg, e.1 = k ∧ e.2 = c := by
  unfold getMap at h
  cases hf : mg.find? (fun e => e.1 = k) with
  | none => rw [hf] at h; simp at h
  | some e0 =>
    rw [hf] at h
    simp at h
    refine ⟨e0, List.mem_of_find?_eq_some hf, ?_, h⟩
    have := List.find?_some hf
    simpa using this

theorem mem_foldl_mgStep :
    ∀ (ms : List RhMatch) (acc : List (String × ℚ × String))
      (e : String × ℚ × String), e ∈ ms.foldl mgStep acc →
      e ∈ acc ∨ ∃ m ∈ ms, e = (m.month, m.value, m.description) := by
  intro ms
  induction ms with
  | nil => intro acc e h; exact Or.inl h
  | cons m rest ih =>
    intro acc e h
    rw [List.foldl_cons] at h
    rcases ih (mgStep acc m) e h with h1 | h1
    · unfold mgStep at h1
      simp only [] at h1
      split at h1
      · rcases mem_setMap_inv h1 with h2 | h2
        · exact Or.inr ⟨m, List.mem_cons_self _ _, h2⟩
        · exact Or.inl h2
      · exact Or.inl h1
    · obtain ⟨m', hm', he⟩ := h1
      exact Or.inr ⟨m', List.mem_cons_of_mem _ hm', he⟩

theorem getMap_foldl_mono :
    ∀ (ms : List RhMatch) (acc : List (String × ℚ × String)) (k : String)
      (c : ℚ × String), getMap acc k = some c →
      ∃ c', getMap (ms.foldl mgStep acc) k = some c' ∧ c.1 ≤ c'.1 := by
  intro ms
  induction ms with
  | nil => intro acc k c h; exact ⟨c, h, le_refl _⟩
  | cons m rest ih =>
    intro acc k c h
    rw [List.foldl_cons]
    by_cases hlt : (match getMap acc m.month with
                    | some e => e.1
                    | none => 0) < m.value
    · have hstep : mgStep acc m = setMap acc m.month m.value m.description := by
        unfold mgStep
        simp only []
        rw [if_pos hlt]
      rw [hstep]
      by_cases hk : k = m.month
      · subst hk
        rw [h] at hlt
        simp only [] at hlt
        obtain ⟨c', hg, hle⟩ := ih (setMap acc m.month m.value m.description) m.month
          (m.value, m.description) (getMap_setMap_self _ _ _ _)
        exact ⟨c', hg, le_trans (le_of_lt hlt) hle⟩
      · obtain ⟨c', hg, hle⟩ := ih (setMap acc m.month m.value m.description) k c
          (by rw [getMap_setMap_ne _ _ _ _ _ hk]; exact h)
        exact ⟨c', hg, hle⟩
    · have hstep : mgStep acc m = acc := by
        unfold mgStep
        simp only []
        rw [if_neg hlt]
      rw [hstep]
      exact ih acc k c h

theorem bound_foldl_mg :
    ∀ (ms : List RhMatch) (acc : List (String × ℚ × String)) (m : RhMatch),
      m ∈ ms → 0 < m.value →
      ∃ c, getMap (ms.foldl mgStep acc) m.month = some c ∧ m.value ≤ c.1 := by
  intro ms
  induction ms with
  | nil => intro acc m h; exact absurd h (List.not_mem_nil m)
  | cons m0 rest ih =>
    intro acc m hm hpos
    rw [List.foldl_cons]
    rcases List.mem_cons.mp hm with h1 | h1
    · subst h1
      by_cases hlt : (match getMap acc m.month with
                      | some e => e.1
                      | none => 0) < m.value
      · have hstep : mgStep acc m = setMap acc m.month m.value m.description := by
          unfold mgStep
          simp only []
          rw [if_pos hlt]
        rw [hstep]
        obtain ⟨c', hg, hle⟩ := getMap_foldl_mono rest _ m.month
          (m.value, m.description) (getMap_setMap_self _ _ _ _)
        exact ⟨c', hg, hle⟩
      · have hstep : mgStep acc m = acc := by
          unfold mgStep
          simp only []
          rw [if_neg hlt]
        rw [hstep]
        cases hg : getMap acc m.month with
        | none => rw [hg] at hlt; simp at hlt; exact absurd (lt_of_lt_of_le hpos hlt) (lt_irrefl _)
        | some c0 =>
          rw [hg] at hlt
          simp at hlt
          obtain ⟨c', hg', hle⟩ := getMap_foldl_mono rest acc m.month c0 hg
          exact ⟨c', hg', le_trans hlt hle⟩
    · exact ih (mgStep acc m0) m h1 hpos

theorem best_foldl_spec :
    ∀ (mg : List (String × ℚ × String)) (acc : ℚ × String),
      (mg.foldl bestStep acc = acc ∨
        ∃ e ∈ mg, mg.foldl bestStep acc = (e.2.1, e.2.2)) ∧
      (∀ e ∈ mg, e.2.1 ≤ (mg.foldl bestStep acc).1) ∧
      acc.1 ≤ (mg.foldl bestStep acc).1 := by
  intro mg
  induction mg with
  | nil => intro acc; exact ⟨Or.inl rfl, by simp, le_refl _⟩
  | cons e rest ih =>
    intro acc
    rw [List.foldl_cons]
    obtain ⟨ih1, ih2, ih3⟩ := ih (bestStep acc e)
    refine ⟨?_, ?_, ?_⟩
    · rcases ih1 with h1 | h1
      · rw [h1]
        unfold bestStep
        split
        · exact Or.inr ⟨e, List.mem_cons_self _ _, rfl⟩
        · exact Or.inl rfl
      · obtain ⟨e', he', heq⟩ := h1
        exact Or.inr ⟨e', List.mem_cons_of_mem _ he', heq⟩
    · intro e' he'
      rcases List.mem_cons.mp he' with h1 | h1
      · subst h1
        refine le_trans ?_ ih3
        unfold bestStep
        split
        · exact le_refl _
        · next hn => exact le_of_not_lt hn
      · exact ih2 e' h1
    · refine le_trans ?_ ih3
      unfold bestStep
      split
      · next hlt => exact le_of_lt hlt
      · exact le_refl _

end RhExtractor

/-- C1 (amended): `extractERPPayrollItems` merges repeated occurrences of a
wanted code into a single item (codes are unique in the result) whose value is
the sum of all parsed occurrences and whose description is the first-seen one;
`rh-extractor`'s `extractPayrollItems`, however, does not sum: the value of a
returned item is the 'maximum' of the values of its matches (it is attained by
some match, and bounds them all). -/
theorem c1_erp_sums_duplicates_rh_takes_max :
    (∀ (text : String) (codes : List String),
      ((PdfExtractor.extractERPPayrollItems text codes).map (fun it => it.code)).Nodup ∧
      ∀ it ∈ PdfExtractor.extractERPPayrollItems text codes,
        it.value = PdfExtractor.sumValues (PdfExtractor.erpWanted text codes) it.code ∧
        ∃ v, (PdfExtractor.erpWanted text codes).find? (fun e => e.code = it.code) =
          some ⟨it.code, it.description, v⟩) ∧
    (∀ (text : String) (codes : List String),
      ∀ it ∈ RhExtractor.extractPayrollItems text codes,
        (∃ m ∈ RhExtractor.collectMatches (RhExtractor.linesOf text) it.code,
          m.value = it.value ∧ m.description = it.description) ∧
        (∀ m ∈ RhExtractor.collectMatches (RhExtractor.linesOf text) it.code,
          m.value ≤ it.value)) := by
  constructor
  · intro text codes
    rw [PdfExtractor.extractERP_eq_buildItems]
    obtain ⟨h1, h2, h3⟩ := PdfExtractor.buildItems_spec (PdfExtractor.erpWanted text codes)
    exact ⟨h1, h3⟩
  · intro text codes it hit
    obtain ⟨code, hc, hpos, heq⟩ := mem_extract_rhx hit
    subst heq
    obtain ⟨hb1, hb2, -⟩ := RhExtractor.best_foldl_spec
      (RhExtractor.monthGroupsOf
        (RhExtractor.collectMatches (RhExtractor.linesOf text) code)) (0, "")
    constructor
    · rcases hb1 with hz | ⟨e, he, hbe⟩
      · exfalso
        have : (RhExtractor.bestOf (RhExtractor.monthGroupsOf
            (RhExtractor.collectMatches (RhExtractor.linesOf text) code))).1 = 0 := by
          show ((RhExtractor.monthGroupsOf
            (RhExtractor.collectMatches (RhExtractor.linesOf text) code)).foldl
              RhExtractor.bestStep (0, "")).1 = 0
          rw [hz]
        rw [this] at hpos
        exact lt_irrefl 0 hpos
      · rcases RhExtractor.mem_foldl_mgStep _ [] e he with hnil | ⟨m, hm, hem⟩
        · exact absurd hnil (List.not_mem_nil e)
        · refine ⟨m, hm, ?_, ?_⟩
          · show m.value = (RhExtractor.bestOf (RhExtractor.monthGroupsOf
              (RhExtractor.collectMatches (RhExtractor.linesOf text) code))).1
            have : RhExtractor.bestOf (RhExtractor.monthGroupsOf
                (RhExtractor.collectMatches (RhExtractor.linesOf text) code))
                = (e.2.1, e.2.2) := hbe
            rw [this, hem]
          · show m.description = (RhExtractor.bestOf (RhExtractor.monthGroupsOf
              (RhExtractor.collectMatches (RhExtractor.linesOf text) code))).2
            have : RhExtractor.bestOf (RhExtractor.monthGroupsOf
                (RhExtractor.collectMatches (RhExtractor.linesOf text) code))
                = (e.2.1, e.2.2) := hbe
            rw [this, hem]
    · intro m hm
      by_cases hmp : 0 < m.value
      · obtain ⟨c, hg, hle⟩ := RhExtractor.bound_foldl_mg
          (RhExtractor.collectMatches (RhExtractor.linesOf text) code) [] m hm hmp
        obtain ⟨e, he, hek, hec⟩ := RhExtractor.getMap_mem hg
        have hbd := hb2 e he
        show m.value ≤ (RhExtractor.bestOf (RhExtractor.monthGroupsOf
          (RhExtractor.collectMatches (RhExtractor.linesOf text) code))).1
        calc m.value ≤ c.1 := hle
          _ = e.2.1 := by rw [hec]
          _ ≤ _ := hbd
      · have h0 : m.value ≤ 0 := le_of_not_lt hmp
        exact le_of_lt (lt_of_le_of_lt h0 hpos)

theorem c1_witness :
    (⟨"0001", "SALARIO", mkRat 15 1⟩ : ExtractedPayrollItem).value =
      PdfExtractor.sumValues (PdfExtractor.erpWanted erpDupText ["0001"])
        (⟨"0001", "SALARIO", mkRat 15 1⟩ : ExtractedPayrollItem).code :=
  ((c1_erp_sums_duplicates_rh_takes_max.1 erpDupText ["0001"]).2
    ⟨"0001", "SALARIO", mkRat 15 1⟩ (by with_unfolding_all decide)).1

/-- C1 counterexample: on an RH page where the wanted code 0001 matches on two
lines with values 100,00 and 50,00, `rh-extractor`'s `extractPayrollItems`
returns a single item of value 100 — the maximum — and not the sum 150 the
claim requires. -/
theorem c1_counterexample :
    RhExtractor.extractPayrollItems rhDupText ["0001"] =
      [⟨"0001", "SALARIO", mkRat 100 1⟩] ∧
    ¬ (mkRat 100 1 = mkRat 150 1) := by
  with_unfolding_all decide

/-- C2 (amended): value parsing strips every `.` and then replaces the first
`,` with `.`, so `"1.234,56"` parses to 1234.56 and `"45,00"` to 45; but a
malformed string such as `"12,3,4"` is not discarded: it normalises to
`"12.3,4"`, JS `parseFloat` takes the longest valid prefix `12.3`, and the
line yields an item carrying that corrupted value.  An all-dots value such as
`".."` normalises to the empty string and the `parseFloat(valueStr || '0')`
fallback keeps the line as a value-0 item.  Only a value whose normalisation
is non-empty but has no parseable numeric prefix (such as `",,"` → `".,"`)
makes `parseFloat` return `NaN` and the line yield nothing. -/
theorem c2_numeric_parsing_roundtrip :
    jsNormalizeNumber ("1.234,56") = "1234.56" ∧
    parseFloatJS (jsNormalizeNumber ("1.234,56")) = some (mkRat 123456 100) ∧
    parseFloatJS (jsNormalizeNumber ("45,00")) = some (mkRat 45 1) ∧
    jsNormalizeNumber ("12,3,4") = "12.3,4" ∧
    parseFloatJS (jsNormalizeNumber ("12,3,4")) = some (mkRat 123 10) ∧
    PdfExtractor.extractERPPayrollItems erpMalformedLine ["0001"] =
      [⟨"0001", "SALARIO", mkRat 123 10⟩] ∧
    jsNormalizeNumber ("..") = "" ∧
    PdfExtractor.extractERPPayrollItems erpAllDotsLine ["0001"] =
      [⟨"0001", "X", mkRat 0 1⟩] ∧
    jsNormalizeNumber (",,") = ".," ∧
    parseFloatJS (jsNormalizeNumber (",,")) = none ∧
    PdfExtractor.extractERPPayrollItems erpNaNLine ["0001"] = [] :=
  ⟨by decide, by decide, by decide, by decide, by decide, by decide,
   by decide, by decide, by decide, by decide, by decide⟩

/-- C2 counterexample: the line with the malformed value `"12,3,4"` does
yield an item (of value 12.3) instead of being discarded. -/
theorem c2_counterexample :
    ¬ (PdfExtractor.extractERPPayrollItems erpMalformedLine ["0001"] = []) ∧
    (PdfExtractor.extractERPPayrollItems erpMalformedLine ["0001"]).map
      (fun it => it.value) = [mkRat 123 10] :=
  ⟨by decide, by decide⟩

/-- C3 (amended): in `extractRHPayrollItems` a three-digit page token such as
`002` is matched by the `\b(\d{3,4})\b` pattern and left-zero-padded to
`0002`, so it is returned under the wanted code `0002`; one- and two-digit
tokens such as `02` never match, and `rh-extractor`'s `extractPayrollItems`
does no normalisation at all (neither `02` nor `002` matches the wanted code
`0002` there). -/
theorem c3_rh_padding :
    PdfExtractor.extractRHPayrollItems rhPad3Line ["0002"] =
      [⟨"0002", "ADICIONAL", mkRat 45 1⟩] ∧
    PdfExtractor.extractRHPayrollItems rhPad2Line ["0002"] = [] ∧
    RhExtractor.extractPayrollItems rhPad2Line ["0002"] = [] ∧
    RhExtractor.extractPayrollItems rhPad3Line ["0002"] = [] := by
  with_unfolding_all decide

/-- C3 counterexample: a page token `02` is NOT matched for the wanted code
`0002` by either RH extractor — no item is returned for it. -/
theorem c3_counterexample :
    ¬ (∃ it ∈ PdfExtractor.extractRHPayrollItems rhPad2Line ["0002"],
        it.code = "0002") ∧
    ¬ (∃ it ∈ RhExtractor.extractPayrollItems rhPad2Line ["0002"],
        it.code = "0002") := by
  with_unfolding_all decide

/-- C4 (amended): `pdf-extractor`'s `processPDF` returns exactly the single
current-date placeholder `{date: MM/YYYY, items: [], source}` whenever no
page yields any item (for either source value); `rh-extractor`'s
`processPDF` — the one the upload route uses for RH — has no such
placeholder and returns the empty sequence. -/
theorem c4_pdf_placeholder :
    ∀ (pages codes : List String) (source : PDFSource) (now : String),
      (∀ p ∈ pages, PdfExtractor.pageItems p codes source = []) →
      PdfExtractor.processPages pages codes source now = [⟨now, [], source⟩] := by
  intro pages codes source now h
  unfold PdfExtractor.processPages
  simp only []
  have hnil : (pages.filterMap (fun page =>
      if 0 < (PdfExtractor.pageItems page codes source).length then
        some (⟨PdfExtractor.extractDate page source now,
          PdfExtractor.pageItems page codes source, source⟩ : ProcessedPayslip)
      else none)) = [] := by
    rw [List.filterMap_eq_nil_iff]
    intro p hp
    rw [h p hp]
    simp
  rw [hnil]
  simp

theorem c4_witness :
    PdfExtractor.processPages ["x"] [] .ERP ("10/2025") =
      [⟨"10/2025", [], .ERP⟩] :=
  c4_pdf_placeholder ["x"] [] .ERP ("10/2025") (by with_unfolding_all decide)

/-- C4 counterexample: a document whose single page yields no matched item
makes `rh-extractor`'s `processPDF` return the empty sequence, not a
placeholder record. -/
theorem c4_counterexample :
    RhExtractor.processPages ["no payroll content here"] ["0001"] = [] := by
  with_unfolding_all decide

/-- C6 (amended): `extractDate` tries its regular-expression rules in order
and the first match wins.  In `pdf-extractor`'s ERP branch the label-anchored
reference-date rule is the first rule, so whenever it matches anywhere in the
page its date is returned in preference to any bare MM/YYYY date (even one
occurring earlier); `rh-extractor`'s `extractDate`, however, has no
label-anchored rule and returns the leftmost bare date instead. -/
theorem c6_erp_label_rule_wins :
    ∀ (text now d : String),
      searchAux PdfExtractor.matchDataRefAt none text.data = some d →
      PdfExtractor.extractDate text PDFSource.ERP now = d := by
  intro text now d h
  unfold PdfExtractor.extractDate
  simp only []
  rw [h]

theorem c6_witness :
    PdfExtractor.extractDate dateSampleText PDFSource.ERP ("10/2025") = "05/2022" :=
  c6_erp_label_rule_wins dateSampleText ("10/2025") "05/2022"
    (by with_unfolding_all decide)

/-- C6 counterexample: on a page holding the bare date `01/2020` before the
label-anchored reference date `05/2022`, `rh-extractor`'s `extractDate`
returns the bare date, not the label-anchored one. -/
theorem c6_counterexample :
    RhExtractor.extractDate dateSampleText = some ("01/2020") ∧
    ¬ ("01/2020" = "05/2022") := by
  with_unfolding_all decide

namespace Routes

theorem rowGet_initRow :
    ∀ (dcs : List String) (dc : String), dc ∈ dcs →
      rowGet (initRow dcs) dc = some 0 := by
  intro dcs
  induction dcs with
  | nil => intro dc h; exact absurd h (List.not_mem_nil dc)
  | cons x rest ih =>
    intro dc h
    by_cases hx : x = dc
    · subst hx
      rw [initRow, List.map_cons, rowGet, List.find?_cons_of_pos _ (by simp)]
      simp
    · rcases List.mem_cons.mp h with h1 | h1
      · exact absurd h1.symm hx
      · rw [initRow, List.map_cons, rowGet,
          List.find?_cons_of_neg _ (by simp [hx])]
        exact ih dc h1

theorem initRow_keys (dcs : List String) : (initRow dcs).map Prod.fst = dcs := by
  induction dcs with
  | nil => rfl
  | cons x rest ih => simp [initRow] at ih ⊢; exact ih

theorem rowGet_rowAdd_self :
    ∀ (row : List (String × ℚ)) (dc : String) (v x : ℚ),
      rowGet row dc = some x → rowGet (rowAdd row dc v) dc = some (x + v) := by
  intro row
  induction row with
  | nil => intro dc v x h; simp [rowGet] at h
  | cons e rest ih =>
    intro dc v x h
    by_cases he : e.1 = dc
    · rw [rowGet, List.find?_cons_of_pos _ (by simp [he])] at h
      simp at h
      rw [rowAdd, if_pos he, rowGet, List.find?_cons_of_pos _ (by simp [he])]
      simp [h]
    · rw [rowGet, List.find?_cons_of_neg _ (by simp [he])] at h
      rw [rowAdd, if_neg he, rowGet, List.find?_cons_of_neg _ (by simp [he])]
      exact ih dc v x h

theorem rowGet_rowAdd_ne :
    ∀ (row : List (String × ℚ)) (dc k : String) (v : ℚ), ¬ k = dc →
      rowGet (rowAdd row dc v) k = rowGet row k := by
  intro row
  induction row with
  | nil =>
    intro dc k v hne
    rw [rowAdd, rowGet, rowGet]
    rw [List.find?_cons_of_neg _ (by simp; exact fun h => hne h.symm)]
  | cons e rest ih =>
    intro dc k v hne
    by_cases he : e.1 = dc
    · rw [rowAdd, if_pos he, rowGet, rowGet,
        List.find?_cons_of_neg _ (by simp [he]; exact fun h => hne h.symm),
        List.find?_cons_of_neg _ (by simp [he]; exact fun h => hne h.symm)]
    · rw [rowAdd, if_neg he]
      by_cases he' : e.1 = k
      · rw [rowGet, rowGet, List.find?_cons_of_pos _ (by simp [he']),
          List.find?_cons_of_pos _ (by simp [he'])]
      · rw [rowGet, rowGet, List.find?_cons_of_neg _ (by simp [he']),
          List.find?_cons_of_neg _ (by simp [he'])]
        exact ih dc k v hne

theorem rowAdd_keys_mem :
    ∀ (row : List (String × ℚ)) (dc : String) (v : ℚ),
      dc ∈ row.map Prod.fst →
      (rowAdd row dc v).map Prod.fst = row.map Prod.fst := by
  intro row
  induction row with
  | nil => intro dc v h; exact absurd h (List.not_mem_nil dc)
  | cons e rest ih =>
    intro dc v h
    by_cases he : e.1 = dc
    · rw [rowAdd, if_pos he]
      simp [he]
    · rw [rowAdd, if_neg he]
      rcases List.mem_cons.mp h with h1 | h1
      · exact absurd h1.symm he
      · simp only [List.map_cons]
        rw [ih dc v h1]

theorem rowGet_foldl_add (M : String → Option String) :
    ∀ (L : List ExtractedPayrollItem) (row : List (String × ℚ)) (dc : String)
      (x : ℚ), rowGet row dc = some x →
      rowGet (L.foldl (fun r it => rowAdd r (displayOf M it.code) it.value) row) dc
        = some (x + ((L.filter (fun it => displayOf M it.code = dc)).map
            (fun it => it.value)).sum) := by
  intro L
  induction L with
  | nil => intro row dc x h; simpa using h
  | cons it rest ih =>
    intro row dc x h
    rw [List.foldl_cons]
    by_cases hd : displayOf M it.code = dc
    · have hstep : rowGet (rowAdd row (displayOf M it.code) it.value) dc
          = some (x + it.value) := by
        rw [hd]
        exact rowGet_rowAdd_self row dc it.value x h
      have := ih (rowAdd row (displayOf M it.code) it.value) dc (x + it.value) hstep
      rw [this, List.filter_cons, decide_eq_true hd]
      simp [add_assoc]
    · have hstep : rowGet (rowAdd row (displayOf M it.code) it.value) dc
          = rowGet row dc :=
        rowGet_rowAdd_ne row (displayOf M it.code) dc it.value
          (fun h' => hd h'.symm)
      have := ih (rowAdd row (displayOf M it.code) it.value) dc x (hstep ▸ h)
      rw [this, List.filter_cons, decide_eq_false hd]
      simp

theorem keys_foldl_add (M : String → Option String) :
    ∀ (L : List ExtractedPayrollItem) (row : List (String × ℚ)),
      (∀ it ∈ L, displayOf M it.code ∈ row.map Prod.fst) →
      (L.foldl (fun r it => rowAdd r (displayOf M it.code) it.value) row).map
        Prod.fst = row.map Prod.fst := by
  intro L
  induction L with
  | nil => intro row _; rfl
  | cons it rest ih =>
    intro row h
    rw [List.foldl_cons]
    have hkeys := rowAdd_keys_mem row (displayOf M it.code) it.value
      (h it (List.mem_cons_self _ _))
    rw [ih (rowAdd row (displayOf M it.code) it.value)
      (fun it' hit' => by rw [hkeys]; exact h it' (List.mem_cons_of_mem _ hit')),
      hkeys]

theorem mem_dedupAcc :
    ∀ (l seen : List String) (x : String),
      x ∈ dedupAcc l seen ↔ x ∈ l ∧ x ∉ seen := by
  intro l
  induction l with
  | nil => intro seen x; simp [dedupAcc]
  | cons y rest ih =>
    intro seen x
    by_cases hy : y ∈ seen
    · rw [dedupAcc, if_pos (by simpa using hy), ih]
      constructor
      · rintro ⟨h1, h2⟩
        exact ⟨List.mem_cons_of_mem _ h1, h2⟩
      · rintro ⟨h1, h2⟩
        rcases List.mem_cons.mp h1 with rfl | h3
        · exact absurd hy h2
        · exact ⟨h3, h2⟩
    · rw [dedupAcc, if_neg (by simpa using hy)]
      constructor
      · intro h
        rcases List.mem_cons.mp h with rfl | h3
        · exact ⟨List.mem_cons_self _ _, hy⟩
        · obtain ⟨h4, h5⟩ := (ih (y :: seen) x).mp h3
          exact ⟨List.mem_cons_of_mem _ h4,
            fun hx => h5 (List.mem_cons_of_mem _ hx)⟩
      · rintro ⟨h1, h2⟩
        rcases List.mem_cons.mp h1 with rfl | h3
        · exact List.mem_cons_self _ _
        · by_cases hxy : x = y
          · subst hxy
            exact List.mem_cons_self _ _
          · refine List.mem_cons_of_mem _ ((ih (y :: seen) x).mpr ⟨h3, ?_⟩)
            intro hx
            rcases List.mem_cons.mp hx with h6 | h6
            · exact hxy h6
            · exact h2 h6

end Routes

/-- C7: consolidation is alias-merge-summing over a dense table.  For every
finished code-to-display map, every stored payslip set, every date and every
known display code, the consolidated row for that date carries that display
code, and its value is the sum of the values of all items of that date's
payslips whose code maps to that display code — so raw codes aliased to the
same display code are summed into a single column, and a display code with no
items on that date shows 0 rather than being absent.  The row's keys are
exactly the known display codes. -/
theorem c7_consolidation_alias_sums_dense :
    ∀ (M : String → Option String) (pd : List Routes.PayrollRow) (d dc : String),
      dc ∈ Routes.uniqueDisplayCodes M pd →
      Routes.rowGet (Routes.rowFor M pd d) dc =
        some ((((pd.filter (fun r => r.date = d)).flatMap (fun r => r.items)).filter
          (fun it => Routes.displayOf M it.code = dc)).map (fun it => it.value)).sum ∧
      (Routes.rowFor M pd d).map Prod.fst = Routes.uniqueDisplayCodes M pd := by
  intro M pd d dc hdc
  constructor
  · unfold Routes.rowFor
    have h0 : Routes.rowGet (Routes.initRow (Routes.uniqueDisplayCodes M pd)) dc
        = some 0 := Routes.rowGet_initRow _ dc hdc
    rw [Routes.rowGet_foldl_add M _ _ dc 0 h0, zero_add]
  · unfold Routes.rowFor
    rw [Routes.keys_foldl_add M _ _ ?_, Routes.initRow_keys]
    intro it hit
    rw [Routes.initRow_keys]
    obtain ⟨r, hr, hitr⟩ := List.mem_flatMap.mp hit
    have hrpd : r ∈ pd := (List.mem_filter.mp hr).1
    apply (Routes.mem_dedupAcc _ _ _).mpr
    refine ⟨?_, List.not_mem_nil _⟩
    exact List.mem_flatMap.mpr ⟨r, hrpd, List.mem_map_of_mem _ hitr⟩

theorem c7_witness :
    Routes.rowGet (Routes.rowFor Routes.M0 Routes.pd0 ("01/2024")) ("G") =
      some (mkRat 15 1) := by
  have h := (c7_consolidation_alias_sums_dense Routes.M0 Routes.pd0
    ("01/2024") ("G") (by decide)).1
  rw [h]
  with_unfolding_all decide

namespace RhExtractor

theorem rhDateYear_spec {r : List Char} {y : String} (h : rhDateYear r = some y) :
    y.data.length = 4 ∧ y.data.all jsDigit = true := by
  unfold rhDateYear at h
  cases ht : takeExactP jsDigit 4 (r.dropWhile jsWs) with
  | none => rw [ht] at h; simp at h
  | some pr =>
    obtain ⟨ys, r5⟩ := pr
    try rw [ht] at h
    simp only [] at h
    by_cases hb : wordness r5.head? = true
    · simp [hb] at h
    · simp only [hb, if_false, Bool.false_eq_true] at h
      simp at h
      obtain ⟨hlen, hall⟩ := takeExactP_spec ht
      rw [← h]
      exact ⟨hlen, hall⟩

theorem rhDateAttempt_spec {rest : List Char} {y : String}
    (h : rhDateAttempt rest = some y) :
    y.data.length = 4 ∧ y.data.all jsDigit = true := by
  unfold rhDateAttempt at h
  cases hm : PdfExtractor.matchCI ['d', 'e'] rest with
  | some pr =>
    obtain ⟨k3, r3⟩ := pr
    try rw [hm] at h
    simp only [] at h
    cases hy : rhDateYear r3 with
    | some y0 =>
      try rw [hy] at h
      simp at h
      rw [← h]
      exact rhDateYear_spec hy
    | none =>
      try rw [hy] at h
      simp only [] at h
      cases hy2 : rhDateYear rest with
      | none => try rw [hy2] at h
                simp at h
      | some y1 =>
        try rw [hy2] at h
        simp at h
        rw [← h]
        exact rhDateYear_spec hy2
  | none =>
    try rw [hm] at h
    simp only [] at h
    cases hy2 : rhDateYear rest with
    | none => try rw [hy2] at h
              simp at h
    | some y1 =>
      try rw [hy2] at h
      simp at h
      rw [← h]
      exact rhDateYear_spec hy2

theorem trySepDe_spec :
    ∀ (sepRev rest : List Char) {y : String}, trySepDe sepRev rest = some y →
      y.data.length = 4 ∧ y.data.all jsDigit = true := by
  intro sepRev
  induction sepRev with
  | nil =>
    intro rest y h
    unfold trySepDe at h
    cases ha : rhDateAttempt rest with
    | none => rw [ha] at h; simp at h
    | some y0 =>
      rw [ha] at h
      simp at h
      rw [← h]
      exact rhDateAttempt_spec ha
  | cons s ss ih =>
    intro rest y h
    unfold trySepDe at h
    cases ha : rhDateAttempt rest with
    | none =>
      rw [ha] at h
      simp only [] at h
      exact ih (s :: rest) h
    | some y0 =>
      rw [ha] at h
      simp at h
      rw [← h]
      exact rhDateAttempt_spec ha

theorem matchRhDate1At_spec {prev : Option Char} {l : List Char} {mk y : String}
    (h : matchRhDate1At prev l = some (mk, y)) :
    (∃ alt ∈ monthKeys, lowerStr mk = alt) ∧
      y.data.length = 4 ∧ y.data.all jsDigit = true := by
  unfold matchRhDate1At at h
  by_cases hw : wordness prev = true
  · simp [hw] at h
  · simp only [hw, if_false, Bool.false_eq_true] at h
    cases ha : PdfExtractor.tryAlts monthKeys l with
    | none => rw [ha] at h; simp at h
    | some pr =>
      obtain ⟨alt, k, r1⟩ := pr
      try rw [ha] at h
      simp only [] at h
      cases hsp : spanP (fun c => c = '/' || jsWs c) r1 with
      | mk sepRun r2 =>
        try rw [hsp] at h
        simp only [] at h
        cases htr : trySepDe sepRun.reverse r2 with
        | none => try rw [htr] at h
                  simp at h
        | some y0 =>
          try rw [htr] at h
          simp at h
          obtain ⟨hmk, hy⟩ := h
          obtain ⟨halt, hmap⟩ := tryAlts_spec ha
          refine ⟨⟨alt, halt, ?_⟩, ?_⟩
          · rw [← hmk]
            show (⟨k.map lowerChar⟩ : String) = alt
            rw [hmap]
          · rw [← hy]
            exact trySepDe_spec _ _ htr

theorem matchRhDate2At_spec {prev : Option Char} {l : List Char} {a b : String}
    (h : matchRhDate2At prev l = some (a, b)) :
    a.data.length = 2 ∧ a.data.all jsDigit = true ∧
      b.data.length = 4 ∧ b.data.all jsDigit = true := by
  unfold matchRhDate2At at h
  cases ht : takeExactP jsDigit 2 l with
  | none => rw [ht] at h; simp at h
  | some pr =>
    obtain ⟨as, r1⟩ := pr
    try rw [ht] at h
    simp only [] at h
    cases r1 with
    | nil => simp at h
    | cons c r2 =>
      simp only [] at h
      by_cases hc : (c = '/' || jsWs c || c = '-') = true
      · simp only [hc, if_true] at h
        cases ht2 : takeExactP jsDigit 4 r2 with
        | none => try rw [ht2] at h
                  simp at h
        | some pr2 =>
          obtain ⟨bs, r3⟩ := pr2
          try rw [ht2] at h
          simp at h
          obtain ⟨ha, hb⟩ := h
          obtain ⟨hal, haa⟩ := takeExactP_spec ht
          obtain ⟨hbl, hba⟩ := takeExactP_spec ht2
          rw [← ha, ← hb]
          exact ⟨hal, haa, hbl, hba⟩
      · simp [hc] at h

theorem monthKeys_mapGet :
    ∀ alt ∈ monthKeys, ∃ mm, mapGet monthMap alt = some mm ∧
      mm.data.length = 2 ∧ mm.data.all jsDigit = true := by
  intro alt halt
  fin_cases halt <;> exact ⟨_, rfl, by decide, by decide⟩

theorem lowerStr_length (s : String) : (lowerStr s).data.length = s.data.length := by
  simp [lowerStr]

theorem digits_mapGet_none {a : String} (h2 : a.data.length = 2) :
    mapGet monthMap a = none := by
  unfold mapGet
  have hnone : monthMap.find? (fun p => p.1 = a) = none := by
    rw [List.find?_eq_none]
    intro p hp
    simp
    intro hpa
    have hl : ∀ q ∈ monthMap, ¬ q.1.data.length = 2 := by decide
    exact hl p hp (by rw [hpa, h2])
  rw [hnone]
  rfl

end RhExtractor

theorem exists_len_four {l : List Char} (h : l.length = 4) :
    ∃ a b c d, l = [a, b, c, d] := by
  match l, h with
  | [a, b, c, d], _ => exact ⟨a, b, c, d, rfl⟩

theorem isMMYYYY_append {mm y : String} (hmm2 : mm.data.length = 2)
    (hmmd : mm.data.all jsDigit = true) (hy : y.data.length = 4)
    (hyd : y.data.all jsDigit = true) : isMMYYYY (mm ++ "/" ++ y) = true := by
  obtain ⟨a, b, hab⟩ := List.length_eq_two.mp hmm2
  obtain ⟨c, d, e, f, hcd⟩ := exists_len_four hy
  rw [hab] at hmmd
  rw [hcd] at hyd
  simp at hmmd hyd
  unfold isMMYYYY
  rw [String.data_append, String.data_append, hab, hcd]
  simp [hmmd.1, hmmd.2, hyd.1, hyd.2.1, hyd.2.2.1, hyd.2.2.2]

/-- C8 (amended): every date produced by `rh-extractor`'s `extractDate` is in
`MM/YYYY` form — a Portuguese month name is converted to its two-digit number
through `monthMap` before the date is returned; but `pdf-extractor`'s
`extractDate` does not convert in its RH branch: it returns the raw matched
month-name date (e.g. `Abril/2022`), which is not `MM/YYYY`. -/
theorem c8_rh_extractor_dates_are_mmyyyy :
    ∀ (text d : String), RhExtractor.extractDate text = some d →
      isMMYYYY d = true := by
  intro text d h
  unfold RhExtractor.extractDate at h
  simp only [] at h
  cases h1 : searchAux RhExtractor.matchRhDate1At none text.data with
  | some pr =>
    obtain ⟨mk, y⟩ := pr
    try rw [h1] at h
    simp only [] at h
    obtain ⟨prev, l', hat⟩ := searchAux_some h1
    obtain ⟨⟨alt, halt, hlow⟩, hy4, hyd⟩ := RhExtractor.matchRhDate1At_spec hat
    obtain ⟨mm, hmg, hmm2, hmmd⟩ := RhExtractor.monthKeys_mapGet alt halt
    rw [hlow, hmg] at h
    simp at h
    rw [← h]
    exact isMMYYYY_append hmm2 hmmd hy4 hyd
  | none =>
    try rw [h1] at h
    simp only [] at h
    cases h2 : searchAux RhExtractor.matchRhDate2At none text.data with
    | none =>
      try rw [h2] at h
      simp at h
    | some pr =>
      obtain ⟨a, b⟩ := pr
      try rw [h2] at h
      simp only [] at h
      obtain ⟨prev, l', hat⟩ := searchAux_some h2
      obtain ⟨ha2, had, hb4, hbd⟩ := RhExtractor.matchRhDate2At_spec hat
      rw [RhExtractor.digits_mapGet_none
        (by rw [RhExtractor.lowerStr_length]; exact ha2)] at h
      simp at h
      rw [← h]
      exact isMMYYYY_append ha2 had hb4 hbd

theorem c8_witness : isMMYYYY ("04/2022") = true :=
  c8_rh_extractor_dates_are_mmyyyy ("Abril/2022") "04/2022" (by decide)

/-- C8 counterexample: `pdf-extractor`'s `extractDate` on an RH page carrying
`Abril/2022` returns that string unconverted — not an `MM/YYYY` date. -/
theorem c8_counterexample :
    PdfExtractor.extractDate ("Abril/2022") PDFSource.RH ("10/2025") = "Abril/2022" ∧
    isMMYYYY ("Abril/2022") = false := by
  exact ⟨by decide, by decide⟩
